import Mathlib

/-!
# System information dashboard (`system_info.c`)

A shallow embedding of the option model, the formatter, three of the probes,
the screen refresh and the key loop of `system_info.c`, with the properties
proved about them.

Conventions of the embedding.

* A C string is the list of its characters before the terminating NUL; a
  `Char` stands for one byte (the program runs in the "C" locale, it never
  calls `setlocale`).
* A `char` array is the list of its bytes; reading it as a string needs a NUL
  inside the array, so that read is an `Option`.
* A finite non-negative `double` is a pair `⟨num, scale⟩` standing for
  `num / 2 ^ scale`; conversions and divisions round to nearest, ties to
  even, on 53 significant bits, as IEEE 754 binary64 does.
* The C library and ncurses are collaborators: `getopt_long` is the list of
  the options it reports, `getch` the list of keys, `mvprintw` a record of
  row, column and text, a file the list of its bytes.
-/

namespace SystemInfo

/-! ## C strings -/

/-- The string held by a byte sequence: the bytes before the first NUL. -/
def cstr (bytes : List Char) : List Char :=
  bytes.takeWhile (fun c => c != '\x00')

/-- Model of `tolower` in the "C" locale. -/
def tolower (c : Char) : Char := c.toLower

/-- Model of `toupper` in the "C" locale. -/
def toupper (c : Char) : Char := c.toUpper

/-- Model of `strcmp`: the difference at the first position where the two
strings differ (the terminating NUL counts as 0), 0 when there is none. -/
def strcmp : List Char → List Char → Int
  | [], [] => 0
  | [], b :: _ => 0 - (b.toNat : Int)
  | a :: _, [] => (a.toNat : Int)
  | a :: as, b :: bs =>
    if a = b then strcmp as bs else (a.toNat : Int) - (b.toNat : Int)

/-- Model of `strcasecmp`: as `strcmp`, on the lower-cased characters. -/
def strcasecmp : List Char → List Char → Int
  | [], [] => 0
  | [], b :: _ => 0 - ((tolower b).toNat : Int)
  | a :: _, [] => ((tolower a).toNat : Int)
  | a :: as, b :: bs =>
    if tolower a = tolower b then strcasecmp as bs
    else ((tolower a).toNat : Int) - ((tolower b).toNat : Int)

/-- Model of `strncmp`: as `strcmp`, on at most `n` characters. -/
def strncmp : List Char → List Char → Nat → Int
  | _, _, 0 => 0
  | [], [], _ + 1 => 0
  | [], b :: _, _ + 1 => 0 - (b.toNat : Int)
  | a :: _, [], _ + 1 => (a.toNat : Int)
  | a :: as, b :: bs, n + 1 =>
    if a = b then strncmp as bs n else (a.toNat : Int) - (b.toNat : Int)

/-- Model of `strchr`: the offset of the first occurrence of `c`, if any. -/
def strchr : List Char → Char → Option Nat
  | [], _ => none
  | a :: as, c => if a = c then some 0 else (strchr as c).map (· + 1)

/-- What `snprintf(dst, size, ...)` stores of the text it formats: at most
`size - 1` characters. -/
def snprintf (size : Nat) (text : List Char) : List Char :=
  text.take (size - 1)

/-! ## Colors (`parse_color`) -/

def COLOR_BLACK : Int := 0
def COLOR_RED : Int := 1
def COLOR_GREEN : Int := 2
def COLOR_YELLOW : Int := 3
def COLOR_BLUE : Int := 4
def COLOR_MAGENTA : Int := 5
def COLOR_CYAN : Int := 6
def COLOR_WHITE : Int := 7

/-- Embedding of `parse_color`. -/
def parse_color (name : List Char) : Int :=
  if strcasecmp name "black".toList = 0 then COLOR_BLACK
  else if strcasecmp name "red".toList = 0 then COLOR_RED
  else if strcasecmp name "green".toList = 0 then COLOR_GREEN
  else if strcasecmp name "yellow".toList = 0 then COLOR_YELLOW
  else if strcasecmp name "blue".toList = 0 then COLOR_BLUE
  else if strcasecmp name "magenta".toList = 0 then COLOR_MAGENTA
  else if strcasecmp name "cyan".toList = 0 then COLOR_CYAN
  else if strcasecmp name "white".toList = 0 then COLOR_WHITE
  else -1

/-! ## Binary64 arithmetic -/

/-- Round the quotient `a / b` to the nearest integer, ties to even. -/
def rne (a b : Nat) : Nat :=
  let q := a / b
  let r := a % b
  if 2 * r < b then q
  else if b < 2 * r then q + 1
  else if q % 2 = 0 then q else q + 1

/-- A finite non-negative `double`: the value `num / 2 ^ scale`. -/
structure Dbl where
  num : Nat
  scale : Nat
deriving DecidableEq, Repr

/-- Search upwards from `t` for the first `t` with `a < 2 ^ 53 * b * 2 ^ t`. -/
def scaleDown (a b : Nat) : Nat → Nat → Nat
  | 0, t => t
  | fuel + 1, t => if a < 2 ^ 53 * b * 2 ^ t then t else scaleDown a b fuel (t + 1)

/-- Search upwards from `d` for the first `d` with `2 ^ 52 * b ≤ a * 2 ^ d`,
stopping at 1074, the scale of the subnormal numbers. -/
def scaleUp (a b : Nat) : Nat → Nat → Nat
  | 0, d => d
  | fuel + 1, d =>
    if 2 ^ 52 * b ≤ a * 2 ^ d ∨ 1074 ≤ d then d else scaleUp a b fuel (d + 1)

/-- The `double` nearest to the rational `a / b` (`b` positive), ties to even:
53 significant bits, scale at most 1074; overflow to infinity is not
modelled (no value of the program comes near `2 ^ 1024`). -/
def roundQ (a b : Nat) : Dbl :=
  if a = 0 then ⟨0, 0⟩
  else if a < 2 ^ 53 * b then
    let d := scaleUp a b 1074 0
    ⟨rne (a * 2 ^ d) b, d⟩
  else
    let t := scaleDown a b 1024 0
    ⟨rne a (b * 2 ^ t) * 2 ^ t, 0⟩

/-- Conversion of an unsigned integer to `double`. -/
def ofNat (n : Nat) : Dbl := roundQ n 1

/-- Division of two `double`s. -/
def fdiv (x y : Dbl) : Dbl :=
  roundQ (x.num * 2 ^ y.scale) (y.num * 2 ^ x.scale)

/-- Conversion of a non-negative `double` to `int`: truncation; undefined
(`none`) when the truncated value does not fit. -/
def toInt (x : Dbl) : Option Nat :=
  if x.num / 2 ^ x.scale < 2 ^ 31 then some (x.num / 2 ^ x.scale) else none

/-- Two decimal digits, zero padded (`%02d` on a non-negative value). -/
def pad2 (n : Nat) : List Char :=
  if n < 10 then '0' :: (Nat.repr n).data else (Nat.repr n).data

/-- The text of `q / 100` with two fractional digits. -/
def fixed2 (q : Nat) : List Char :=
  (Nat.repr (q / 100)).data ++ '.' :: pad2 (q % 100)

/-- Model of `%.2f` on a non-negative `double`: the exact value is rounded to
the nearest multiple of 1/100, ties to even. -/
def printf_2f (x : Dbl) : List Char :=
  fixed2 (rne (100 * x.num) (2 ^ x.scale))

/-! ## Formatter (`format_size`) -/

/-- Embedding of `format_size`: the contents of its static buffer `buf[64]`
after the call. -/
def format_size (bytes : Nat) (unit : List Char) : List Char :=
  let val : Dbl := ofNat bytes
  let val : Dbl :=
    if strcmp unit "KB".toList = 0 then fdiv val (ofNat 1024)
    else if strcmp unit "MB".toList = 0 then fdiv val (ofNat (1024 * 1024))
    else if strcmp unit "GB".toList = 0 then fdiv val (ofNat (1024 * 1024 * 1024))
    else if strcmp unit "TB".toList = 0 then
      fdiv val (ofNat (1024 * 1024 * 1024 * 1024))
    else val
  snprintf 64 (printf_2f val ++ ' ' :: unit)

/-! ## Option model (`struct opts`, the option loop of `main`) -/

/-- The global `options` of type `struct opts`; `unit` is the `char[4]`. -/
structure Opts where
  os : Int
  user : Int
  shell : Int
  pkgs : Int
  res : Int
  uptime : Int
  load : Int
  cpu : Int
  mem : Int
  disk : Int
  net : Int
  color : Int
  color_value : Int
  unit : List Char
deriving DecidableEq, Repr

/-- The result of `memset(&options, 0, sizeof(options))`. -/
def memset0 : Opts :=
  ⟨0, 0, 0, 0, 0, 0, 0, 0, 0, 0, 0, 0, 0, ['\x00', '\x00', '\x00', '\x00']⟩

/-- The result of `memset(&options, 1, sizeof(options))`: every byte is 1, so
every `int` is `0x01010101`, the `short` is `0x0101`, and `unit` holds four
bytes 1 and no NUL. -/
def memset1 : Opts :=
  ⟨16843009, 16843009, 16843009, 16843009, 16843009, 16843009, 16843009,
   16843009, 16843009, 16843009, 16843009, 16843009, 257,
   ['\x01', '\x01', '\x01', '\x01']⟩

/-- The bytes of an array after `strcpy(dst, src)`: the string, its NUL, and
the rest of the array as it was (the strings copied here fit). -/
def strcpy (dst src : List Char) : List Char :=
  src ++ '\x00' :: dst.drop (src.length + 1)

/-- The `n` bytes written by `strncpy(dst, src, n)`: the first `n` characters
of the string, padded with NUL up to `n`. -/
def strncpy (src : List Char) (n : Nat) : List Char :=
  src.take n ++ List.replicate (n - (src.take n).length) '\x00'

/-- The string an array holds, when there is a NUL inside the array. -/
def arrayStr (bytes : List Char) : Option (List Char) :=
  if '\x00' ∈ bytes then some (cstr bytes) else none

/-- One option reported by `getopt_long`: the value it returns (`?` for an
option it does not recognize) and `optarg`. -/
structure Getopt where
  opt : Char
  optarg : List Char
deriving DecidableEq, Repr

/-- The body of `case 'U'`: the new contents of `options.unit`. -/
def unit_of_optarg (optarg : List Char) : List Char :=
  let u : List Char := strncpy (cstr optarg) 3 ++ ['\x00']
  let len := (cstr u).length
  let u : List Char := (u.take len).map toupper ++ u.drop len
  strncpy (cstr u) 4

/-- The `switch (opt)` of `main`. -/
def switch_opt (o : Opts) (g : Getopt) : Opts :=
  if g.opt = 'a' then { memset1 with color := 1 }
  else if g.opt = 'o' then { o with os := 1 }
  else if g.opt = 'u' then { o with user := 1 }
  else if g.opt = 's' then { o with shell := 1 }
  else if g.opt = 'p' then { o with pkgs := 1 }
  else if g.opt = 'r' then { o with res := 1 }
  else if g.opt = 't' then { o with uptime := 1 }
  else if g.opt = 'l' then { o with load := 1 }
  else if g.opt = 'c' then { o with cpu := 1 }
  else if g.opt = 'm' then { o with mem := 1 }
  else if g.opt = 'd' then { o with disk := 1 }
  else if g.opt = 'n' then { o with net := 1 }
  else if g.opt = 'C' then
    let v := parse_color g.optarg
    if 0 ≤ v then { o with color := 1, color_value := v } else o
  else if g.opt = 'U' then { o with unit := unit_of_optarg g.optarg }
  else o

/-- The `while ((opt = getopt_long(...)) != -1)` loop of `main`, on the
options still to come, from the current `options` and `any_flag`. -/
def option_loop : List Getopt → Opts × Int → Opts × Int
  | [], st => st
  | g :: gs, st => option_loop gs (switch_opt st.1 g, 1)

/-- The `options` that `main` has built when it starts the screen, from the
options `getopt_long` reports for the command line. -/
def main_options (args : List Getopt) : Opts :=
  let o : Opts := { memset0 with color := 0 }
  let o : Opts := { o with unit := strcpy o.unit "GB".toList }
  let st := option_loop args (o, 0)
  if st.2 = 0 then
    let o : Opts := { memset1 with color := 0 }
    { o with unit := strcpy o.unit "GB".toList }
  else st.1

/-- The eleven metric categories, in declaration order. -/
inductive Category
  | os | user | shell | pkgs | res | uptime | load | cpu | mem | disk | net
deriving DecidableEq, Repr

/-- The categories in the order of the fields of `struct opts`. -/
def Category.all : List Category :=
  [.os, .user, .shell, .pkgs, .res, .uptime, .load, .cpu, .mem, .disk, .net]

/-- The short option of a category. -/
def Category.flag : Category → Char
  | .os => 'o' | .user => 'u' | .shell => 's' | .pkgs => 'p' | .res => 'r'
  | .uptime => 't' | .load => 'l' | .cpu => 'c' | .mem => 'm' | .disk => 'd'
  | .net => 'n'

/-- The field of a category. -/
def Opts.field (o : Opts) : Category → Int
  | .os => o.os | .user => o.user | .shell => o.shell | .pkgs => o.pkgs
  | .res => o.res | .uptime => o.uptime | .load => o.load | .cpu => o.cpu
  | .mem => o.mem | .disk => o.disk | .net => o.net

/-- A category is enabled when its field is non-zero (`if (options.os)`). -/
def Opts.enabled (o : Opts) (c : Category) : Bool := o.field c != 0

/-! ## Files read line by line (`fgets`) -/

/-- The strings that successive calls `fgets(line, n, file)` store, until the
call that returns `NULL` at the end of the file: each holds the bytes up to
and including the next newline, at most `n - 1` of them; `cur` is the part of
the current one read so far, in reverse. -/
def fgets_all (n : Nat) : List Char → List Char → List (List Char)
  | [], cur => if cur = [] then [] else [cur.reverse]
  | c :: cs, cur =>
    if c = '\n' ∨ cur.length + 2 = n then (c :: cur).reverse :: fgets_all n cs []
    else fgets_all n cs (c :: cur)

/-! ## CPU probe (`get_cpu_info`) -/

/-- The `while (fgets(line, sizeof(line), file))` loop of `get_cpu_info`, on
the buffers still to be read. The result is `none` where `colon + 2` points
past the terminating NUL of `line`, which C leaves undefined. -/
def cpu_loop (size : Nat) : List (List Char) → Option (List Char)
  | [] => some (snprintf size "CPU info not found".toList)
  | buf :: rest =>
    let line := cstr buf
    if strncmp line "model name".toList 10 = 0 then
      match strchr line ':' with
      | some colon =>
        if colon + 2 ≤ buf.length then some (snprintf size (cstr (buf.drop (colon + 2))))
        else none
      | none => cpu_loop size rest
    else cpu_loop size rest

/-- Embedding of `get_cpu_info`: what it writes to `cpu_info`, given the
contents of `/proc/cpuinfo` (`none` when it cannot be opened). -/
def get_cpu_info (file : Option (List Char)) (size : Nat) : Option (List Char) :=
  match file with
  | none => some (snprintf size "Error opening /proc/cpuinfo".toList)
  | some bytes => cpu_loop size (fgets_all 256 bytes [])

/-! ## Memory probe (`get_memory_info`) -/

/-- Model of `isspace` in the "C" locale. -/
def isspace (c : Char) : Bool :=
  c = ' ' || c = '\t' || c = '\n' || c = '\x0b' || c = '\x0c' || c = '\r'

/-- The value of a sequence of decimal digits. -/
def digitsVal (ds : List Char) : Nat :=
  ds.foldl (fun acc c => 10 * acc + (c.toNat - '0'.toNat)) 0

/-- Model of the `%lu` conversion of `sscanf` on a 64-bit `unsigned long`:
white space is skipped, then an optional sign and at least one digit are
read; a value that does not fit is `ULONG_MAX` and a negative one wraps, as
in glibc. `none` when there is no digit. -/
def scan_lu (s : List Char) : Option Nat :=
  let s := s.dropWhile isspace
  let neg := s.head? = some '-'
  let s := if s.head? = some '-' ∨ s.head? = some '+' then s.drop 1 else s
  let ds := s.takeWhile Char.isDigit
  if ds = [] then none
  else
    let v := digitsVal ds
    if 2 ^ 64 ≤ v then some (2 ^ 64 - 1)
    else if neg then some ((2 ^ 64 - v) % 2 ^ 64)
    else some v

/-- Model of `sscanf(line, "<key> %lu kB", &x) == 1`: the converted value
when the line starts with the key and a number follows. -/
def sscanf_lu (line key : List Char) : Option Nat :=
  if key.isPrefixOf line then scan_lu (line.drop key.length) else none

/-- The `while (fgets(...))` loop of `get_memory_info`: the final `total` and
`available`. -/
def mem_loop : List (List Char) → Nat × Nat → Nat × Nat
  | [], st => st
  | buf :: rest, st =>
    match sscanf_lu (cstr buf) "MemTotal:".toList with
    | some v => mem_loop rest (v, st.2)
    | none =>
      match sscanf_lu (cstr buf) "MemAvailable:".toList with
      | some v => (st.1, v)
      | none => mem_loop rest st

/-- Embedding of `get_memory_info`: what it writes to `memory_info`, given the
contents of `/proc/meminfo` (`none` when it cannot be opened) and the string
in `options.unit`. Both calls of `format_size` return the address of the one
static buffer, so both `%s` print what the call made last left there; C does
not fix the order of the two calls, `usedLast` tells which one is last. -/
def get_memory_info (file : Option (List Char)) (unit : List Char) (usedLast : Bool)
    (size : Nat) : List Char :=
  match file with
  | none => snprintf size "Error opening /proc/meminfo".toList
  | some bytes =>
    let st := mem_loop (fgets_all 256 bytes []) (0, 0)
    let total := st.1
    let available := st.2
    let used := (total + 2 ^ 64 - available) % 2 ^ 64
    let buf_used := format_size (used * 1024 % 2 ^ 64) unit
    let buf_available := format_size (available * 1024 % 2 ^ 64) unit
    let buf := if usedLast then buf_used else buf_available
    snprintf size ("Used: ".toList ++ buf ++ " / Available: ".toList ++ buf)

/-! ## Uptime probe (`get_uptime_info`) -/

/-- Embedding of `get_uptime_info`: what it writes to `uptime_info`. The
argument is `none` when `/proc/uptime` cannot be opened, `some none` when
`fscanf(file, "%lf", &sec)` converts nothing, `some (some x)` when it stores
the non-negative `double` `x`. The result is `none` when a conversion to
`int` is undefined. -/
def get_uptime_info (file : Option (Option Dbl)) (size : Nat) : Option (List Char) :=
  match file with
  | none => some (snprintf size "Error opening /proc/uptime".toList)
  | some reading =>
    let sec : Dbl := match reading with
      | some x => x
      | none => ⟨0, 0⟩
    match toInt (fdiv sec (ofNat 86400)), toInt sec with
    | some days, some isec =>
      let hrs := isec % 86400 / 3600
      let mins := isec % 3600 / 60
      let secs := isec % 60
      some (snprintf size ((Nat.repr days).data ++ " days, ".toList ++ pad2 hrs ++
        ':' :: pad2 mins ++ ':' :: pad2 secs))
    | _, _ => none

/-! ## Screen refresh (`draw_screen`) -/

/-- What each probe leaves in its buffer when it is called: `os_sys` is the
result of `get_system_info("uname -a")` (`none` for `NULL`), the others are
the strings written to the buffers of the same name. -/
structure Readings where
  os_sys : Option (List Char)
  user_host : List Char
  shell_info : List Char
  pkg_info : List Char
  res_info : List Char
  uptime_info : List Char
  load_info : List Char
  cpu_info : List Char
  memory_info : List Char
  disk_info : List Char
  net_info : List Char

/-- One call of `mvprintw`: screen row, column and the text printed. -/
structure Print where
  row : Nat
  col : Nat
  text : List Char
deriving DecidableEq, Repr

/-- The calls of `mvprintw` made so far and the variable `row`. -/
structure Scr where
  out : List Print
  row : Nat

/-- Model of `mvprintw(row++, col, ...)`. -/
def Scr.next (s : Scr) (col : Nat) (text : List Char) : Scr :=
  ⟨s.out ++ [⟨s.row, col, text⟩], s.row + 1⟩

/-- The tokens that `strtok(s, "\n")` and the following `strtok(NULL, "\n")`
return: the maximal runs of characters other than newline; `cur` is the
current run, in reverse. -/
def strtok_all : List Char → List Char → List (List Char)
  | [], cur => if cur = [] then [] else [cur.reverse]
  | c :: cs, cur =>
    if c = '\n' then
      if cur = [] then strtok_all cs [] else cur.reverse :: strtok_all cs []
    else strtok_all cs (c :: cur)

/-- The `while (line)` loop of `draw_screen` over the tokens of `net_info`. -/
def net_loop : List (List Char) → Scr → Scr
  | [], s => s
  | line :: rest, s => net_loop rest (s.next 6 line)

/-- Model of `if (flag) probe(...)`: the probe of category `c` joins the
probes called so far when the flag is non-zero. -/
def probe_if (flag : Int) (c : Category) (probed : List Category) : List Category :=
  if flag ≠ 0 then probed ++ [c] else probed

/-- Model of `if (flag) mvprintw(row++, col, ...)`. -/
def print_if (flag : Int) (col : Nat) (text : List Char) (s : Scr) : Scr :=
  if flag ≠ 0 then s.next col text else s

/-- Embedding of `draw_screen`: the probes it calls, in order, and the calls
of `mvprintw` it makes between `clear()` and `refresh()`. The result is
`none` when `options.unit` holds no NUL, since printing it with `%s` is then
undefined. -/
def draw_screen (o : Opts) (r : Readings) : Option (List Category × List Print) :=
  let os_info := if o.os ≠ 0 then
      snprintf 256 ("OS: ".toList ++ (match r.os_sys with
        | some sys => sys
        | none => "unknown".toList))
    else []
  let probed : List Category := probe_if o.os .os []
  let probed := probe_if o.user .user probed
  let probed := probe_if o.shell .shell probed
  let probed := probe_if o.pkgs .pkgs probed
  let probed := probe_if o.res .res probed
  let probed := probe_if o.uptime .uptime probed
  let probed := probe_if o.load .load probed
  let probed := probe_if o.cpu .cpu probed
  let probed := probe_if o.mem .mem probed
  let probed := probe_if o.disk .disk probed
  let probed := probe_if o.net .net probed
  match arrayStr o.unit with
  | none => none
  | some unit =>
    let s : Scr := ⟨[], 1⟩
    let s := s.next 2 ("System Information (unit=".toList ++ unit ++ ")".toList)
    let s := s.next 2 "-------------------".toList
    let s := print_if o.os 4 os_info s
    let s := print_if o.user 4 r.user_host s
    let s := print_if o.shell 4 r.shell_info s
    let s := print_if o.pkgs 4 r.pkg_info s
    let s := print_if o.res 4 r.res_info s
    let s := print_if o.uptime 4 ("Uptime: ".toList ++ r.uptime_info) s
    let s := print_if o.load 4 ("Load Average: ".toList ++ r.load_info) s
    let s := print_if o.cpu 4 ("CPU: ".toList ++ r.cpu_info) s
    let s := print_if o.mem 4 r.memory_info s
    let s := print_if o.disk 4 ("Disk: ".toList ++ r.disk_info) s
    let s := if o.net ≠ 0 then
        net_loop (strtok_all r.net_info []) (s.next 4 "Network Interfaces:".toList)
      else s
    some (probed, s.out ++ [⟨s.row + 1, 2, "Press ':' to refresh, 'q' to exit...".toList⟩])

/-! ## Key loop (the end of `main`) -/

/-- What the program does to the screen. -/
inductive Event
  | show_instructions | draw_screen | endwin
deriving DecidableEq, Repr

/-- Where the program stands when the keys typed so far are used up: in the
first `while`, in the second `while`, or past it. -/
inductive Pc
  | first_loop | second_loop | finished
deriving DecidableEq, Repr

/-- The loop `while ((ch = getch()) != 'q') { if (ch == ':') draw_screen(); }`
followed by `endwin()`, on the keys still to come. -/
def second_loop : List Int → Pc × List Event
  | [] => (.second_loop, [])
  | ch :: keys =>
    if ch ≠ 113 then
      if ch = 58 then
        let r := second_loop keys
        (r.1, Event.draw_screen :: r.2)
      else second_loop keys
    else (.finished, [Event.endwin])

/-- The loop `while ((ch = getch()) != '.') {}` followed by `draw_screen()`
and the second loop, on the keys still to come. -/
def first_loop : List Int → Pc × List Event
  | [] => (.first_loop, [])
  | ch :: keys =>
    if ch ≠ 46 then first_loop keys
    else
      let r := second_loop keys
      (r.1, Event.draw_screen :: r.2)

/-- The end of `main`, from `show_instructions()` on: where the program stands
and what it has done to the screen once it has read the given keys (the
values returned by `getch`; 46, 58 and 113 are `.`, `:` and `q`). -/
def key_loop (keys : List Int) : Pc × List Event :=
  let r := first_loop keys
  (r.1, Event.show_instructions :: r.2)

/-! ## The dashboard state machine of the specification -/

/-- The states of the specification, with the exit of the program as a
third, final one. -/
inductive DashboardState
  | Instructions | Active | Exited
deriving DecidableEq, Repr

/-- The transition on one key, written from the specification: in
`Instructions` only the start key `.` moves to `Active`, with one refresh; in
`Active` only `q` quits and only `:` refreshes; every other key does nothing. -/
def spec_step : DashboardState → Int → DashboardState × List Event
  | .Instructions, k => if k = 46 then (.Active, [Event.draw_screen]) else (.Instructions, [])
  | .Active, k =>
    if k = 113 then (.Exited, [Event.endwin])
    else if k = 58 then (.Active, [Event.draw_screen])
    else (.Active, [])
  | .Exited, _ => (.Exited, [])

/-- The state machine of the specification run over a sequence of keys: the
state reached and what was done to the screen. -/
def spec_run : DashboardState → List Int → DashboardState × List Event
  | s, [] => (s, [])
  | s, k :: ks =>
    let r := spec_run (spec_step s k).1 ks
    (r.1, (spec_step s k).2 ++ r.2)

/-- The place in `main` that a state of the specification stands for. -/
def DashboardState.pc : DashboardState → Pc
  | .Instructions => .first_loop
  | .Active => .second_loop
  | .Exited => .finished

/-! ## The screen layout of the specification -/

/-- The lines of a listing: the pieces between newlines that are not empty. -/
def listing_lines (s : List Char) : List (List Char) :=
  (s.splitOn '\n').filter (fun l => !l.isEmpty)

/-- The rows of one category, as column and text: one row, except for the
network category, which has its title and one deeper-indented row for each
line of the listing. The OS row holds at most the 255 characters of its
buffer. -/
def rows_of (r : Readings) : Category → List (Nat × List Char)
  | .os => [(4, ("OS: ".toList ++ (match r.os_sys with
      | some sys => sys
      | none => "unknown".toList)).take 255)]
  | .user => [(4, r.user_host)]
  | .shell => [(4, r.shell_info)]
  | .pkgs => [(4, r.pkg_info)]
  | .res => [(4, r.res_info)]
  | .uptime => [(4, "Uptime: ".toList ++ r.uptime_info)]
  | .load => [(4, "Load Average: ".toList ++ r.load_info)]
  | .cpu => [(4, "CPU: ".toList ++ r.cpu_info)]
  | .mem => [(4, r.memory_info)]
  | .disk => [(4, "Disk: ".toList ++ r.disk_info)]
  | .net => (4, "Network Interfaces:".toList) :: (listing_lines r.net_info).map (fun l => (6, l))

/-- Rows placed on consecutive screen rows from `start` on. -/
def number_rows : Nat → List (Nat × List Char) → List Print
  | _, [] => []
  | start, (col, text) :: rest => ⟨start, col, text⟩ :: number_rows (start + 1) rest

/-- The two header rows, the first one showing the unit. -/
def header_rows (unit : List Char) : List Print :=
  [⟨1, 2, "System Information (unit=".toList ++ unit ++ ")".toList⟩,
   ⟨2, 2, "-------------------".toList⟩]

/-- The footer hint, on the given row. -/
def footer_row (row : Nat) : Print :=
  ⟨row, 2, "Press ':' to refresh, 'q' to exit...".toList⟩

/-- The refresh as the specification describes it: the enabled categories in
declaration order are the ones probed; the header, their rows on consecutive
screen rows, then the footer one row further down. -/
def spec_screen (o : Opts) (unit : List Char) (r : Readings) : List Category × List Print :=
  let enabled := Category.all.filter o.enabled
  let body := (enabled.map (rows_of r)).flatten
  (enabled, header_rows unit ++ number_rows 3 body ++ [footer_row (3 + body.length + 1)])

/-- The state of `draw_screen` after the header and the rows `body`. -/
def bodyScr (unit : List Char) (body : List (Nat × List Char)) : Scr :=
  ⟨header_rows unit ++ number_rows 3 body, 3 + body.length⟩

/-! ## The default configuration -/

/-- The options `main` builds in its `if (!any_flag)` branch: every byte of
the structure set to 1, then color off and the unit `GB`. -/
def default_all : Opts :=
  { memset1 with color := 0, unit := ['G', 'B', '\x00', '\x01'] }

/-- The values of `getopt_long` that `main` has a `case` for. -/
def recognized : List Char := "aousprtlcmdnCU".toList

/-- Once `-a` has run the color flag is 1 for good: either the `os` field is
still 0 or 1, or the color is on. -/
def afterAllColor (o : Opts) : Prop := (o.os = 0 ∨ o.os = 1) ∨ o.color = 1

/-! ## The CPU field of the specification -/

/-- The bytes of a table given as its lines, each followed by a newline. -/
def table_bytes (lines : List (List Char)) : List Char :=
  (lines.map (fun l => l ++ ['\n'])).flatten

/-- The lines the CPU probe looks for: those that begin with `model name` and
contain a colon. -/
def is_model_line (l : List Char) : Bool :=
  "model name".toList.isPrefixOf l && l.contains ':'

/-- The CPU string as the specification words it: the value of the first
model line, without the colon and the space that lead it and without the
newline that ends the line. -/
def spec_cpu_info (lines : List (List Char)) : List Char :=
  match lines.find? is_model_line with
  | some l => (l.dropWhile (fun c => c != ':')).drop 2
  | none => "CPU info not found".toList

/-- The CPU string as the code produces it: the model line with its newline,
from the second character after its first colon on. -/
def code_cpu_info (lines : List (List Char)) : List Char :=
  match lines.find? is_model_line with
  | some l => ((l ++ ['\n']).dropWhile (fun c => c != ':')).drop 2
  | none => "CPU info not found".toList


/-- The lines the CPU probe reads before it returns: those up to and
including the first model line, all of them when there is none. -/
def scanned_lines : List (List Char) → List (List Char)
  | [] => []
  | l :: ls => if is_model_line l then [l] else l :: scanned_lines ls

/-! ## The rendering of the specification -/

/-- The power of 1024 that the specification gives a unit: 0, 1, 2, 3, 4 for
`B`, `KB`, `MB`, `GB`, `TB`, and 0 for every other string. -/
def unit_exponent (u : List Char) : Nat :=
  if u = "B".toList then 0
  else if u = "KB".toList then 1
  else if u = "MB".toList then 2
  else if u = "GB".toList then 3
  else if u = "TB".toList then 4
  else 0

/-- The string `s` is a decimal rendering with exactly two fractional digits
of `b / 1024 ^ k`: it is the text of `q / 100` for a `q` with
`|q / 100 - b / 1024 ^ k| ≤ 1 / 200`. -/
def IsRendering (b k : Nat) (s : List Char) : Prop :=
  ∃ q : Nat, 2 * (100 * b) ≤ 2 * (q * 1024 ^ k) + 1024 ^ k ∧
    2 * (q * 1024 ^ k) ≤ 2 * (100 * b) + 1024 ^ k ∧ s = fixed2 q

/-! # Properties -/

set_option maxRecDepth 100000

/-! ## Characters -/

theorem char_of_toNat_eq {c : Char} {n : Nat} (h : c.toNat = n) : c = Char.ofNat n := by
  rw [← h, Char.ofNat_toNat]

theorem toNat_eq_zero_iff (c : Char) : c.toNat = 0 ↔ c = '\x00' := by
  constructor
  · intro h
    rw [char_of_toNat_eq h]
  · rintro rfl; decide

theorem tolower_eq_nul (c : Char) : tolower c = '\x00' ↔ c = '\x00' := by
  constructor
  · intro h
    unfold tolower Char.toLower at h
    by_cases hc : c.toNat ≥ 65 ∧ c.toNat ≤ 90
    · exfalso
      obtain ⟨h1, h2⟩ := hc
      generalize hn : c.toNat = n at h1 h2
      have hcn := char_of_toNat_eq hn
      subst hcn
      interval_cases n <;> revert h <;> decide
    · simpa only [hc, if_false] using h
  · rintro rfl; decide

theorem toupper_eq_nul (c : Char) : toupper c = '\x00' ↔ c = '\x00' := by
  constructor
  · intro h
    unfold toupper Char.toUpper at h
    by_cases hc : c.toNat ≥ 97 ∧ c.toNat ≤ 122
    · exfalso
      obtain ⟨h1, h2⟩ := hc
      generalize hn : c.toNat = n at h1 h2
      have hcn := char_of_toNat_eq hn
      subst hcn
      interval_cases n <;> revert h <;> decide
    · simpa only [hc, if_false] using h
  · rintro rfl; decide

/-! ## String comparison -/

theorem strcasecmp_eq_zero_iff (a b : List Char) (ha : '\x00' ∉ a) (hb : '\x00' ∉ b) :
    strcasecmp a b = 0 ↔ a.map tolower = b.map tolower := by
  induction a generalizing b with
  | nil =>
    cases b with
    | nil => simp [strcasecmp]
    | cons y ys =>
      have hy : y ≠ '\x00' := fun h => hb (by simp [h])
      have : (tolower y).toNat ≠ 0 := by
        rw [Ne, toNat_eq_zero_iff, tolower_eq_nul]; exact hy
      simp only [strcasecmp, List.map_nil, List.map_cons]
      constructor
      · intro h; omega
      · intro h; simp at h
  | cons x xs ih =>
    have hx : x ≠ '\x00' := fun h => ha (by simp [h])
    have hxs : '\x00' ∉ xs := fun h => ha (by simp [h])
    cases b with
    | nil =>
      have : (tolower x).toNat ≠ 0 := by
        rw [Ne, toNat_eq_zero_iff, tolower_eq_nul]; exact hx
      simp only [strcasecmp, List.map_nil, List.map_cons]
      constructor
      · intro h; omega
      · intro h; simp at h
    | cons y ys =>
      have hys : '\x00' ∉ ys := fun h => hb (by simp [h])
      simp only [strcasecmp, List.map_cons]
      by_cases hxy : tolower x = tolower y
      · simp only [hxy, if_true, List.cons.injEq, true_and]
        exact ih ys hxs hys
      · simp only [hxy, if_false, List.cons.injEq, false_and, iff_false]
        intro h
        apply hxy
        have h2 : (tolower x).toNat = (tolower y).toNat := by omega
        rw [char_of_toNat_eq h2, Char.ofNat_toNat]

theorem strcmp_eq_zero_iff (a b : List Char) (ha : '\x00' ∉ a) (hb : '\x00' ∉ b) :
    strcmp a b = 0 ↔ a = b := by
  induction a generalizing b with
  | nil =>
    cases b with
    | nil => simp [strcmp]
    | cons y ys =>
      have hy : y ≠ '\x00' := fun h => hb (by simp [h])
      have : y.toNat ≠ 0 := by
        rw [Ne, toNat_eq_zero_iff]; exact hy
      simp only [strcmp]
      constructor
      · intro h; omega
      · intro h; simp at h
  | cons x xs ih =>
    have hx : x ≠ '\x00' := fun h => ha (by simp [h])
    have hxs : '\x00' ∉ xs := fun h => ha (by simp [h])
    cases b with
    | nil =>
      have : x.toNat ≠ 0 := by
        rw [Ne, toNat_eq_zero_iff]; exact hx
      simp only [strcmp]
      constructor
      · intro h; omega
      · intro h; simp at h
    | cons y ys =>
      have hys : '\x00' ∉ ys := fun h => hb (by simp [h])
      simp only [strcmp]
      by_cases hxy : x = y
      · simp only [hxy, if_true, List.cons.injEq, true_and]
        exact ih ys hxs hys
      · simp only [hxy, if_false, List.cons.injEq, false_and, iff_false]
        intro h
        apply hxy
        have h2 : x.toNat = y.toNat := by omega
        rw [char_of_toNat_eq h2, Char.ofNat_toNat]

/-! ## Colors -/

/-- C8. `parse_color` ignores letter case: two names with the same lower-cased
letters get the same result; a name that is one of the eight color names up
to letter case gets that color's identifier, every other name gets -1. -/
theorem parse_color_spec (name : List Char) (hname : '\x00' ∉ name) :
    (∀ name' : List Char, '\x00' ∉ name' → name'.map tolower = name.map tolower →
      parse_color name' = parse_color name) ∧
    (name.map tolower = "black".toList → parse_color name = COLOR_BLACK) ∧
    (name.map tolower = "red".toList → parse_color name = COLOR_RED) ∧
    (name.map tolower = "green".toList → parse_color name = COLOR_GREEN) ∧
    (name.map tolower = "yellow".toList → parse_color name = COLOR_YELLOW) ∧
    (name.map tolower = "blue".toList → parse_color name = COLOR_BLUE) ∧
    (name.map tolower = "magenta".toList → parse_color name = COLOR_MAGENTA) ∧
    (name.map tolower = "cyan".toList → parse_color name = COLOR_CYAN) ∧
    (name.map tolower = "white".toList → parse_color name = COLOR_WHITE) ∧
    (name.map tolower ∉ ["black".toList, "red".toList, "green".toList, "yellow".toList,
        "blue".toList, "magenta".toList, "cyan".toList, "white".toList] →
      parse_color name = -1) ∧
    parse_color "RED".toList = parse_color "red".toList ∧
    parse_color "chartreuse".toList = -1 := by
  have key : ∀ (n : List Char), '\x00' ∉ n → ∀ lit : List Char, '\x00' ∉ lit →
      lit.map tolower = lit → (strcasecmp n lit = 0 ↔ n.map tolower = lit) := by
    intro n hn lit hlit hlow
    rw [strcasecmp_eq_zero_iff n lit hn hlit, hlow]
  have e1 := fun n hn => key n hn "black".toList (by decide) (by decide)
  have e2 := fun n hn => key n hn "red".toList (by decide) (by decide)
  have e3 := fun n hn => key n hn "green".toList (by decide) (by decide)
  have e4 := fun n hn => key n hn "yellow".toList (by decide) (by decide)
  have e5 := fun n hn => key n hn "blue".toList (by decide) (by decide)
  have e6 := fun n hn => key n hn "magenta".toList (by decide) (by decide)
  have e7 := fun n hn => key n hn "cyan".toList (by decide) (by decide)
  have e8 := fun n hn => key n hn "white".toList (by decide) (by decide)
  refine ⟨?_, ?_, ?_, ?_, ?_, ?_, ?_, ?_, ?_, ?_, by decide, by decide⟩
  · intro name' hname' heq
    unfold parse_color
    simp only [e1 _ hname, e2 _ hname, e3 _ hname, e4 _ hname, e5 _ hname, e6 _ hname,
      e7 _ hname, e8 _ hname, e1 _ hname', e2 _ hname', e3 _ hname', e4 _ hname',
      e5 _ hname', e6 _ hname', e7 _ hname', e8 _ hname', heq]
  all_goals
    intro h
    unfold parse_color
    simp only [e1 _ hname, e2 _ hname, e3 _ hname, e4 _ hname, e5 _ hname, e6 _ hname,
      e7 _ hname, e8 _ hname]
    first
      | (rw [h]; decide)
      | (simp only [List.mem_cons, List.mem_singleton, not_or, List.not_mem_nil,
          or_false] at h
         simp only [h, if_false])

/-- Witness of `parse_color_spec` at the name `Blue`. -/
theorem parse_color_spec_witness :
    '\x00' ∉ "Blue".toList ∧ parse_color "Blue".toList = COLOR_BLUE :=
  ⟨by decide, (parse_color_spec "Blue".toList (by decide)).2.2.2.2.2.1 (by decide)⟩
/-! ## Key loop -/

theorem spec_run_exited (keys : List Int) :
    spec_run .Exited keys = (.Exited, []) := by
  induction keys with
  | nil => rfl
  | cons k ks ih => simp [spec_run, spec_step, ih]

theorem second_loop_eq (keys : List Int) :
    second_loop keys =
      ((spec_run .Active keys).1.pc, (spec_run .Active keys).2) := by
  induction keys with
  | nil => rfl
  | cons k ks ih =>
    by_cases hq : k = 113
    · simp [second_loop, spec_run, spec_step, hq, spec_run_exited, DashboardState.pc]
    · by_cases hr : k = 58
      · simp [second_loop, spec_run, spec_step, hr, ih]
      · simp [second_loop, spec_run, spec_step, hq, hr, ih]

theorem first_loop_eq (keys : List Int) :
    first_loop keys =
      ((spec_run .Instructions keys).1.pc, (spec_run .Instructions keys).2) := by
  induction keys with
  | nil => rfl
  | cons k ks ih =>
    by_cases hs : k = 46
    · simp [first_loop, spec_run, spec_step, hs, second_loop_eq]
    · simp [first_loop, spec_run, spec_step, hs, ih]

/-- C7. For every sequence of keys the key loop of `main` is the two-state
machine of the specification started in `Instructions` after the help text
is shown: it stands where the machine stands and has drawn what the machine
has drawn. In that machine, in `Instructions` only `.` moves to `Active`,
with exactly one refresh, and any other key changes nothing; in `Active`
only `q` ends the loop, only `:` refreshes, and any other key changes
nothing. -/
theorem key_loop_state_machine (keys : List Int) :
    key_loop keys =
      ((spec_run .Instructions keys).1.pc,
        Event.show_instructions :: (spec_run .Instructions keys).2) ∧
    spec_step .Instructions 46 = (.Active, [Event.draw_screen]) ∧
    (∀ k : Int, k ≠ 46 → spec_step .Instructions k = (.Instructions, [])) ∧
    spec_step .Active 113 = (.Exited, [Event.endwin]) ∧
    spec_step .Active 58 = (.Active, [Event.draw_screen]) ∧
    (∀ k : Int, k ≠ 113 → k ≠ 58 → spec_step .Active k = (.Active, [])) := by
  refine ⟨?_, rfl, ?_, rfl, rfl, ?_⟩
  · simp [key_loop, first_loop_eq]
  · intro k hk; simp [spec_step, hk]
  · intro k hq hr; simp [spec_step, hq, hr]
/-! ## Screen refresh -/

theorem number_rows_append (start : Nat) (xs ys : List (Nat × List Char)) :
    number_rows start (xs ++ ys) = number_rows start xs ++ number_rows (start + xs.length) ys := by
  induction xs generalizing start with
  | nil => simp [number_rows]
  | cons x xs ih =>
    obtain ⟨c, t⟩ := x
    simp [number_rows, ih, Nat.add_assoc, Nat.add_comm 1]

theorem bodyScr_next (unit : List Char) (body : List (Nat × List Char)) (col : Nat)
    (text : List Char) :
    (bodyScr unit body).next col text = bodyScr unit (body ++ [(col, text)]) := by
  simp [bodyScr, Scr.next, number_rows_append, number_rows, Nat.add_assoc]

theorem print_if_bodyScr (unit : List Char) (body : List (Nat × List Char)) (flag : Int)
    (col : Nat) (text : List Char) :
    print_if flag col text (bodyScr unit body) =
      bodyScr unit (body ++ if flag ≠ 0 then [(col, text)] else []) := by
  unfold print_if
  split <;> simp [bodyScr_next]

theorem probe_if_eq (flag : Int) (c : Category) (probed : List Category) :
    probe_if flag c probed = probed ++ if flag ≠ 0 then [c] else [] := by
  unfold probe_if
  split <;> simp

theorem net_loop_bodyScr (unit : List Char) (toks : List (List Char))
    (body : List (Nat × List Char)) :
    net_loop toks (bodyScr unit body) = bodyScr unit (body ++ toks.map (fun l => (6, l))) := by
  induction toks generalizing body with
  | nil => simp [net_loop]
  | cons t ts ih => simp [net_loop, bodyScr_next, ih]

theorem strtok_all_eq_go (s cur : List Char) :
    strtok_all s cur =
      (List.splitOnP.go (fun c => c == '\n') s cur).filter (fun l => !l.isEmpty) := by
  induction s generalizing cur with
  | nil =>
    by_cases h : cur = []
    · simp [strtok_all, List.splitOnP.go, h]
    · simp [strtok_all, List.splitOnP.go, h]
  | cons c cs ih =>
    by_cases hc : c = '\n'
    · by_cases h : cur = []
      · simp [strtok_all, List.splitOnP.go, hc, h, ih]
      · simp [strtok_all, List.splitOnP.go, hc, h, ih]
    · simp [strtok_all, List.splitOnP.go, hc, ih]

theorem strtok_all_eq (s : List Char) : strtok_all s [] = listing_lines s :=
  strtok_all_eq_go s []

theorem filter_cons_append {α : Type} (p : α → Bool) (a : α) (l : List α) :
    (a :: l).filter p = (if p a = true then [a] else []) ++ l.filter p := by
  by_cases h : p a = true <;> simp [List.filter_cons, h]

theorem enabled_iff (o : Opts) (c : Category) : o.enabled c = true ↔ o.field c ≠ 0 := by
  simp [Opts.enabled]

theorem map_ite_singleton {α β : Type} (f : α → β) (c : Prop) [Decidable c] (a : α) :
    (if c then [a] else []).map f = if c then [f a] else [] := by
  split <;> simp

theorem flatten_ite_singleton {α : Type} (c : Prop) [Decidable c] (l : List α) :
    (if c then [l] else ([] : List (List α))).flatten = if c then l else [] := by
  split <;> simp

theorem draw_screen_eq (o : Opts) (r : Readings) (unit : List Char)
    (hunit : arrayStr o.unit = some unit) :
    draw_screen o r = some (spec_screen o unit r) := by
  have h0 : (((⟨[], 1⟩ : Scr).next 2
      ("System Information (unit=".toList ++ unit ++ ")".toList)).next 2
      "-------------------".toList) = bodyScr unit [] := by
    simp [Scr.next, bodyScr, header_rows, number_rows]
  simp only [draw_screen, hunit, h0, print_if_bodyScr, probe_if_eq, List.nil_append,
    strtok_all_eq, snprintf]
  simp only [spec_screen, Category.all, filter_cons_append, enabled_iff, Opts.field,
    List.filter_nil, List.map_append, List.flatten_append, map_ite_singleton,
    flatten_ite_singleton, List.append_nil, List.append_assoc, rows_of, List.map_nil,
    List.flatten_nil]
  have hos : ∀ (c : Prop) [Decidable c] (x : List Char),
      (if c then [((4 : Nat), if c then x else [])] else []) = if c then [(4, x)] else [] := by
    intro c _ x; split <;> simp [*]
  rw [hos]
  by_cases hn : o.net = 0
  · simp only [hn, ne_eq, not_true_eq_false, if_false, List.append_nil, bodyScr, footer_row]
    simp only [List.append_assoc, Nat.add_assoc]
  · simp only [hn, ne_eq, not_false_eq_true, if_true, bodyScr_next, net_loop_bodyScr]
    simp only [bodyScr, footer_row, List.append_assoc, Nat.add_assoc, List.singleton_append]

/-- C3. One refresh, for any options whose unit array holds a string and any
probe readings: the probes called are exactly the enabled categories in the
order os, user, shell, packages, resolution, uptime, load, cpu, memory, disk,
network, and the rows printed are the two header rows (the first showing the
unit), the rows of those categories in that order on consecutive screen rows
from row 3, and the footer hint. A disabled category is not probed and has
no row; with every category disabled only header and footer are printed.
With only memory and network enabled and a listing of two interfaces, the
rows are the header, the memory row, the network title and one row for each
interface, and the footer. -/
theorem draw_screen_rows (o : Opts) (r : Readings) (unit : List Char)
    (hunit : arrayStr o.unit = some unit) :
    draw_screen o r =
      some (Category.all.filter o.enabled,
        header_rows unit ++
          number_rows 3 (((Category.all.filter o.enabled).map (rows_of r)).flatten) ++
          [footer_row (3 + (((Category.all.filter o.enabled).map (rows_of r)).flatten).length
            + 1)]) ∧
    (∀ c : Category, o.enabled c = false → c ∉ Category.all.filter o.enabled) ∧
    ((∀ c : Category, o.enabled c = false) →
      draw_screen o r = some ([], header_rows unit ++ [footer_row 4])) ∧
    draw_screen (main_options [⟨'n', []⟩, ⟨'m', []⟩])
        ⟨none, [], [], [], [], [], [], [], "Used: 1.00 GB / Available: 1.00 GB".toList, [],
          "lo UNKNOWN 127.0.0.1/8\n\neth0 UP 10.0.0.2/24\n".toList⟩ =
      some ([Category.mem, Category.net],
        [⟨1, 2, "System Information (unit=GB)".toList⟩, ⟨2, 2, "-------------------".toList⟩,
         ⟨3, 4, "Used: 1.00 GB / Available: 1.00 GB".toList⟩,
         ⟨4, 4, "Network Interfaces:".toList⟩,
         ⟨5, 6, "lo UNKNOWN 127.0.0.1/8".toList⟩,
         ⟨6, 6, "eth0 UP 10.0.0.2/24".toList⟩,
         ⟨8, 2, "Press ':' to refresh, 'q' to exit...".toList⟩]) := by
  have hmain := draw_screen_eq o r unit hunit
  refine ⟨hmain, ?_, ?_, by decide⟩
  · intro c hc hmem
    rw [List.mem_filter] at hmem
    rw [hmem.2] at hc
    exact Bool.noConfusion hc
  · intro hall
    have hnil : Category.all.filter o.enabled = [] := by
      rw [List.filter_eq_nil_iff]
      intro c _
      simp [hall c]
    rw [hmain, spec_screen, hnil]
    simp [number_rows]

/-- Witness of `draw_screen_rows`: the options of `-o -n -U mb`, with two
interfaces listed. -/
theorem draw_screen_rows_witness :
    arrayStr (main_options [⟨'o', []⟩, ⟨'n', []⟩, ⟨'U', "mb".toList⟩]).unit =
      some "MB".toList ∧
    draw_screen (main_options [⟨'o', []⟩, ⟨'n', []⟩, ⟨'U', "mb".toList⟩])
        ⟨some "Linux".toList, [], [], [], [], [], [], [], [], [],
          "lo UP\neth0 UP\n".toList⟩ =
      some ([Category.os, Category.net],
        [⟨1, 2, "System Information (unit=MB)".toList⟩, ⟨2, 2, "-------------------".toList⟩,
         ⟨3, 4, "OS: Linux".toList⟩, ⟨4, 4, "Network Interfaces:".toList⟩,
         ⟨5, 6, "lo UP".toList⟩, ⟨6, 6, "eth0 UP".toList⟩,
         ⟨8, 2, "Press ':' to refresh, 'q' to exit...".toList⟩]) :=
  ⟨by decide,
   (draw_screen_rows (main_options [⟨'o', []⟩, ⟨'n', []⟩, ⟨'U', "mb".toList⟩])
      ⟨some "Linux".toList, [], [], [], [], [], [], [], [], [],
        "lo UP\neth0 UP\n".toList⟩ "MB".toList
      (by decide)).1.trans (by decide)⟩
/-! ## Option model -/

theorem option_loop_eq (args : List Getopt) (o : Opts) (f : Int) :
    option_loop args (o, f) = (args.foldl switch_opt o, if args = [] then f else 1) := by
  induction args generalizing o f with
  | nil => simp [option_loop]
  | cons g gs ih =>
    simp only [option_loop, ih, List.foldl_cons]
    by_cases h : gs = [] <;> simp [h]

theorem main_options_nil : main_options [] = default_all := by decide

theorem main_options_cons (g : Getopt) (gs : List Getopt) :
    main_options (g :: gs) =
      (g :: gs).foldl switch_opt { memset0 with unit := ['G', 'B', '\x00', '\x00'] } := by
  simp only [main_options, option_loop_eq]
  simp
  rfl

theorem switch_opt_a (o : Opts) (g : Getopt) (h : g.opt = 'a') :
    switch_opt o g = { memset1 with color := 1 } := by
  simp only [switch_opt, h]
  simp

theorem switch_opt_o (o : Opts) (g : Getopt) (h : g.opt = 'o') :
    switch_opt o g = { o with os := 1 } := by
  simp only [switch_opt, h]
  simp

theorem switch_opt_u (o : Opts) (g : Getopt) (h : g.opt = 'u') :
    switch_opt o g = { o with user := 1 } := by
  simp only [switch_opt, h]
  simp

theorem switch_opt_s (o : Opts) (g : Getopt) (h : g.opt = 's') :
    switch_opt o g = { o with shell := 1 } := by
  simp only [switch_opt, h]
  simp

theorem switch_opt_p (o : Opts) (g : Getopt) (h : g.opt = 'p') :
    switch_opt o g = { o with pkgs := 1 } := by
  simp only [switch_opt, h]
  simp

theorem switch_opt_r (o : Opts) (g : Getopt) (h : g.opt = 'r') :
    switch_opt o g = { o with res := 1 } := by
  simp only [switch_opt, h]
  simp

theorem switch_opt_t (o : Opts) (g : Getopt) (h : g.opt = 't') :
    switch_opt o g = { o with uptime := 1 } := by
  simp only [switch_opt, h]
  simp

theorem switch_opt_l (o : Opts) (g : Getopt) (h : g.opt = 'l') :
    switch_opt o g = { o with load := 1 } := by
  simp only [switch_opt, h]
  simp

theorem switch_opt_c (o : Opts) (g : Getopt) (h : g.opt = 'c') :
    switch_opt o g = { o with cpu := 1 } := by
  simp only [switch_opt, h]
  simp

theorem switch_opt_m (o : Opts) (g : Getopt) (h : g.opt = 'm') :
    switch_opt o g = { o with mem := 1 } := by
  simp only [switch_opt, h]
  simp

theorem switch_opt_d (o : Opts) (g : Getopt) (h : g.opt = 'd') :
    switch_opt o g = { o with disk := 1 } := by
  simp only [switch_opt, h]
  simp

theorem switch_opt_n (o : Opts) (g : Getopt) (h : g.opt = 'n') :
    switch_opt o g = { o with net := 1 } := by
  simp only [switch_opt, h]
  simp

theorem switch_opt_C (o : Opts) (g : Getopt) (h : g.opt = 'C') :
    switch_opt o g =
      if 0 ≤ parse_color g.optarg then
        { o with color := 1, color_value := parse_color g.optarg }
      else o := by
  simp only [switch_opt, h]
  simp

theorem switch_opt_U (o : Opts) (g : Getopt) (h : g.opt = 'U') :
    switch_opt o g = { o with unit := unit_of_optarg g.optarg } := by
  simp only [switch_opt, h]
  simp

theorem switch_opt_other (o : Opts) (g : Getopt) (h : g.opt ∉ recognized) :
    switch_opt o g = o := by
  simp only [recognized, String.toList, List.mem_cons, List.mem_singleton, not_or,
    List.not_mem_nil, or_false] at h
  simp only [switch_opt, h, if_false]

theorem switch_opt_enabled (o : Opts) (g : Getopt) (c : Category) :
    (switch_opt o g).enabled c = true ↔
      (o.enabled c = true ∨ g.opt = c.flag ∨ g.opt = 'a') := by
  by_cases ha : g.opt = 'a'
  · rw [switch_opt_a o g ha]
    cases c <;> simp [Opts.enabled, Opts.field, Category.flag, ha, memset1]
  by_cases ho : g.opt = 'o'
  · rw [switch_opt_o o g ho]
    cases c <;> simp [Opts.enabled, Opts.field, Category.flag, ho]
  by_cases hu : g.opt = 'u'
  · rw [switch_opt_u o g hu]
    cases c <;> simp [Opts.enabled, Opts.field, Category.flag, hu]
  by_cases hs : g.opt = 's'
  · rw [switch_opt_s o g hs]
    cases c <;> simp [Opts.enabled, Opts.field, Category.flag, hs]
  by_cases hp : g.opt = 'p'
  · rw [switch_opt_p o g hp]
    cases c <;> simp [Opts.enabled, Opts.field, Category.flag, hp]
  by_cases hr : g.opt = 'r'
  · rw [switch_opt_r o g hr]
    cases c <;> simp [Opts.enabled, Opts.field, Category.flag, hr]
  by_cases ht : g.opt = 't'
  · rw [switch_opt_t o g ht]
    cases c <;> simp [Opts.enabled, Opts.field, Category.flag, ht]
  by_cases hl : g.opt = 'l'
  · rw [switch_opt_l o g hl]
    cases c <;> simp [Opts.enabled, Opts.field, Category.flag, hl]
  by_cases hc : g.opt = 'c'
  · rw [switch_opt_c o g hc]
    cases c <;> simp [Opts.enabled, Opts.field, Category.flag, hc]
  by_cases hm : g.opt = 'm'
  · rw [switch_opt_m o g hm]
    cases c <;> simp [Opts.enabled, Opts.field, Category.flag, hm]
  by_cases hd : g.opt = 'd'
  · rw [switch_opt_d o g hd]
    cases c <;> simp [Opts.enabled, Opts.field, Category.flag, hd]
  by_cases hn : g.opt = 'n'
  · rw [switch_opt_n o g hn]
    cases c <;> simp [Opts.enabled, Opts.field, Category.flag, hn]
  by_cases hC : g.opt = 'C'
  · rw [switch_opt_C o g hC]
    split_ifs <;> cases c <;> simp [Opts.enabled, Opts.field, Category.flag, hC]
  by_cases hU : g.opt = 'U'
  · rw [switch_opt_U o g hU]
    cases c <;> simp [Opts.enabled, Opts.field, Category.flag, hU]
  have hother : g.opt ∉ recognized := by
    simp only [recognized, String.toList, List.mem_cons, List.mem_singleton, not_or,
      List.not_mem_nil, or_false]
    exact ⟨ha, ho, hu, hs, hp, hr, ht, hl, hc, hm, hd, hn, hC, hU⟩
  rw [switch_opt_other o g hother]
  cases c <;> simp [Opts.enabled, Opts.field, Category.flag, ha, ho, hu, hs, hp, hr, ht, hl, hc,
    hm, hd, hn]

theorem foldl_switch_opt_enabled (args : List Getopt) (o : Opts) (c : Category) :
    (args.foldl switch_opt o).enabled c = true ↔
      (o.enabled c = true ∨ ∃ g ∈ args, g.opt = c.flag ∨ g.opt = 'a') := by
  induction args generalizing o with
  | nil => simp
  | cons g gs ih =>
    simp only [List.foldl_cons, ih, switch_opt_enabled, List.mem_cons, exists_eq_or_imp]
    constructor
    · rintro ((h | h) | h)
      · exact Or.inl h
      · exact Or.inr (Or.inl h)
      · exact Or.inr (Or.inr h)
    · rintro (h | h | h)
      · exact Or.inl (Or.inl h)
      · exact Or.inl (Or.inr h)
      · exact Or.inr h

theorem switch_opt_afterAllColor (o : Opts) (g : Getopt) (h : afterAllColor o) :
    afterAllColor (switch_opt o g) := by
  unfold afterAllColor at h ⊢
  by_cases ha : g.opt = 'a'
  · rw [switch_opt_a o g ha]; exact Or.inr rfl
  by_cases ho : g.opt = 'o'
  · rw [switch_opt_o o g ho]; exact Or.inl (Or.inr rfl)
  by_cases hu : g.opt = 'u'
  · rw [switch_opt_u o g hu]; exact h
  by_cases hs : g.opt = 's'
  · rw [switch_opt_s o g hs]; exact h
  by_cases hp : g.opt = 'p'
  · rw [switch_opt_p o g hp]; exact h
  by_cases hr : g.opt = 'r'
  · rw [switch_opt_r o g hr]; exact h
  by_cases ht : g.opt = 't'
  · rw [switch_opt_t o g ht]; exact h
  by_cases hl : g.opt = 'l'
  · rw [switch_opt_l o g hl]; exact h
  by_cases hc : g.opt = 'c'
  · rw [switch_opt_c o g hc]; exact h
  by_cases hm : g.opt = 'm'
  · rw [switch_opt_m o g hm]; exact h
  by_cases hd : g.opt = 'd'
  · rw [switch_opt_d o g hd]; exact h
  by_cases hn : g.opt = 'n'
  · rw [switch_opt_n o g hn]; exact h
  by_cases hC : g.opt = 'C'
  · rw [switch_opt_C o g hC]
    split_ifs
    · exact Or.inr rfl
    · exact h
  by_cases hU : g.opt = 'U'
  · rw [switch_opt_U o g hU]; exact h
  have hother : g.opt ∉ recognized := by
    simp only [recognized, String.toList, List.mem_cons, List.mem_singleton, not_or,
      List.not_mem_nil, or_false]
    exact ⟨ha, ho, hu, hs, hp, hr, ht, hl, hc, hm, hd, hn, hC, hU⟩
  rw [switch_opt_other o g hother]; exact h

theorem foldl_switch_opt_afterAllColor (args : List Getopt) (o : Opts)
    (h : afterAllColor o) : afterAllColor (args.foldl switch_opt o) := by
  induction args generalizing o with
  | nil => exact h
  | cons g gs ih => exact ih _ (switch_opt_afterAllColor o g h)

theorem main_options_eq_default_all_iff (args : List Getopt) :
    main_options args = default_all ↔ args = [] := by
  constructor
  · intro h
    cases args with
    | nil => rfl
    | cons g gs =>
      exfalso
      rw [main_options_cons] at h
      have hinv := foldl_switch_opt_afterAllColor (g :: gs)
        { memset0 with unit := ['G', 'B', '\x00', '\x00'] } (Or.inl (Or.inl rfl))
      rw [h] at hinv
      unfold afterAllColor at hinv
      revert hinv
      decide
  · rintro rfl
    exact main_options_nil

theorem main_options_enabled (args : List Getopt) (hargs : args ≠ []) (c : Category) :
    (main_options args).enabled c = true ↔ ∃ g ∈ args, g.opt = c.flag ∨ g.opt = 'a' := by
  cases args with
  | nil => exact absurd rfl hargs
  | cons g gs =>
    rw [main_options_cons, foldl_switch_opt_enabled]
    constructor
    · rintro (h | h)
      · exfalso; revert h; cases c <;> decide
      · exact h
    · exact Or.inr

/-- C4, as the code has it. The default-all configuration is applied exactly
when `getopt_long` reports no option at all, recognized or not: then all
eleven categories are enabled, the unit is `GB` and color is off. As soon as
one option is reported, the only categories enabled are those whose own flag
or `-a` was given; `-C blue` alone gives color on with the blue identifier
and every category disabled. -/
theorem main_options_default_all (args : List Getopt) :
    (main_options args = default_all ↔ args = []) ∧
    ((∀ c : Category, default_all.enabled c = true) ∧
      arrayStr default_all.unit = some "GB".toList ∧ default_all.color = 0) ∧
    (args ≠ [] → ∀ c : Category,
      ((main_options args).enabled c = true ↔ ∃ g ∈ args, g.opt = c.flag ∨ g.opt = 'a')) ∧
    ((main_options [⟨'C', "blue".toList⟩]).color = 1 ∧
      (main_options [⟨'C', "blue".toList⟩]).color_value = COLOR_BLUE ∧
      ∀ c : Category, (main_options [⟨'C', "blue".toList⟩]).enabled c = false) := by
  refine ⟨main_options_eq_default_all_iff args, ⟨?_, by decide, by decide⟩,
    fun h c => main_options_enabled args h c, by decide, by decide, ?_⟩
  · intro c; cases c <;> decide
  · intro c; cases c <;> decide

/-- Witness of `main_options_default_all`: the command line `-m -x -C red`. -/
theorem main_options_default_all_witness :
    [(⟨'m', []⟩ : Getopt), ⟨'?', []⟩, ⟨'C', "red".toList⟩] ≠ [] ∧
    ((main_options [⟨'m', []⟩, ⟨'?', []⟩, ⟨'C', "red".toList⟩]).enabled .mem = true ↔
      ∃ g ∈ [(⟨'m', []⟩ : Getopt), ⟨'?', []⟩, ⟨'C', "red".toList⟩],
        g.opt = Category.mem.flag ∨ g.opt = 'a') :=
  ⟨by decide,
   (main_options_default_all [⟨'m', []⟩, ⟨'?', []⟩, ⟨'C', "red".toList⟩]).2.2.1
     (by decide) .mem⟩

/-- C4 as stated fails: on the command line `-x` no recognized flag is
supplied (`getopt_long` reports `?`), yet the default-all configuration is
not applied: every category stays disabled. -/
theorem default_all_not_applied_on_unrecognized :
    (∀ g ∈ [(⟨'?', []⟩ : Getopt)], g.opt ∉ recognized) ∧
    main_options [⟨'?', []⟩] ≠ default_all ∧
    ∀ c : Category, (main_options [⟨'?', []⟩]).enabled c = false := by
  refine ⟨by decide, by decide, ?_⟩
  intro c; cases c <;> decide

/-- C6 fails on the command line `-a`: the `memset` of `case 'a'` fills
`options.unit` with bytes 1 and nothing restores it, so the array holds no
NUL-terminated string at all, and none of the five units; the same happens
when `-a` follows a unit flag. -/
theorem unit_after_all_flag :
    (main_options [⟨'a', []⟩]).unit = ['\x01', '\x01', '\x01', '\x01'] ∧
    arrayStr (main_options [⟨'a', []⟩]).unit = none ∧
    arrayStr (main_options [⟨'U', "gb".toList⟩, ⟨'a', []⟩]).unit = none ∧
    arrayStr (main_options [⟨'a', []⟩, ⟨'U', "gb".toList⟩]).unit = some "GB".toList ∧
    arrayStr (main_options []).unit = some "GB".toList := by
  decide

theorem switch_opt_unit (o : Opts) (g : Getopt) (ha : g.opt ≠ 'a') (hU : g.opt ≠ 'U') :
    (switch_opt o g).unit = o.unit := by
  by_cases ho : g.opt = 'o'
  · rw [switch_opt_o o g ho]
  by_cases hu : g.opt = 'u'
  · rw [switch_opt_u o g hu]
  by_cases hs : g.opt = 's'
  · rw [switch_opt_s o g hs]
  by_cases hp : g.opt = 'p'
  · rw [switch_opt_p o g hp]
  by_cases hr : g.opt = 'r'
  · rw [switch_opt_r o g hr]
  by_cases ht : g.opt = 't'
  · rw [switch_opt_t o g ht]
  by_cases hl : g.opt = 'l'
  · rw [switch_opt_l o g hl]
  by_cases hc : g.opt = 'c'
  · rw [switch_opt_c o g hc]
  by_cases hm : g.opt = 'm'
  · rw [switch_opt_m o g hm]
  by_cases hd : g.opt = 'd'
  · rw [switch_opt_d o g hd]
  by_cases hn : g.opt = 'n'
  · rw [switch_opt_n o g hn]
  by_cases hC : g.opt = 'C'
  · rw [switch_opt_C o g hC]
    split_ifs <;> rfl
  have hother : g.opt ∉ recognized := by
    simp only [recognized, String.toList, List.mem_cons, List.mem_singleton, not_or,
      List.not_mem_nil, or_false]
    exact ⟨ha, ho, hu, hs, hp, hr, ht, hl, hc, hm, hd, hn, hC, hU⟩
  rw [switch_opt_other o g hother]

theorem foldl_switch_opt_unit_none (args : List Getopt) (o : Opts)
    (ha : ∀ g ∈ args, g.opt ≠ 'a') (hU : ∀ g ∈ args, g.opt ≠ 'U') :
    (args.foldl switch_opt o).unit = o.unit := by
  induction args generalizing o with
  | nil => rfl
  | cons g gs ih =>
    rw [List.foldl_cons, ih _ (fun x hx => ha x (List.mem_cons_of_mem _ hx))
      (fun x hx => hU x (List.mem_cons_of_mem _ hx))]
    exact switch_opt_unit o g (ha g (List.mem_cons_self _ _)) (hU g (List.mem_cons_self _ _))

theorem foldl_switch_opt_unit_one (args : List Getopt) (o : Opts) (u : Getopt)
    (ha : ∀ g ∈ args, g.opt ≠ 'a')
    (hone : args.filter (fun g => g.opt = 'U') = [u]) :
    (args.foldl switch_opt o).unit = unit_of_optarg u.optarg := by
  induction args generalizing o with
  | nil => simp at hone
  | cons g gs ih =>
    have ha' : ∀ x ∈ gs, x.opt ≠ 'a' := fun x hx => ha x (List.mem_cons_of_mem _ hx)
    rw [List.foldl_cons]
    by_cases hg : g.opt = 'U'
    · rw [List.filter_cons_of_pos (by simpa using hg)] at hone
      obtain ⟨rfl, hrest⟩ := List.cons.inj hone
      have hnoU : ∀ x ∈ gs, x.opt ≠ 'U' := by
        intro x hx hxU
        have : x ∈ gs.filter (fun g => g.opt = 'U') := by
          rw [List.mem_filter]; exact ⟨hx, by simpa using hxU⟩
        rw [hrest] at this
        exact List.not_mem_nil _ this
      rw [foldl_switch_opt_unit_none gs _ ha' hnoU, switch_opt_U o g hg]
    · rw [List.filter_cons_of_neg (by simpa using hg)] at hone
      exact ih _ ha' hone

theorem cstr_append_nul (x rest : List Char) (hx : '\x00' ∉ x) :
    cstr (x ++ '\x00' :: rest) = x := by
  induction x with
  | nil => simp [cstr]
  | cons a as ih =>
    have ha : a ≠ '\x00' := fun h => hx (by simp [h])
    have has : '\x00' ∉ as := fun h => hx (by simp [h])
    have := ih has
    simp only [cstr] at this ⊢
    simp [List.takeWhile_cons, ha, this]

theorem cstr_of_not_mem (x : List Char) (hx : '\x00' ∉ x) : cstr x = x := by
  induction x with
  | nil => simp [cstr]
  | cons a as ih =>
    have ha : a ≠ '\x00' := fun h => hx (by simp [h])
    have has : '\x00' ∉ as := fun h => hx (by simp [h])
    have := ih has
    simp only [cstr] at this ⊢
    simp [List.takeWhile_cons, ha, this]

theorem not_mem_map_toupper (x : List Char) (hx : '\x00' ∉ x) :
    '\x00' ∉ x.map toupper := by
  intro h
  rw [List.mem_map] at h
  obtain ⟨c, hc, hc0⟩ := h
  rw [toupper_eq_nul] at hc0
  exact hx (hc0 ▸ hc)

theorem unit_of_optarg_eq (s : List Char) (hs : '\x00' ∉ s) :
    unit_of_optarg s = strncpy ((s.take 3).map toupper) 4 := by
  have ht : '\x00' ∉ s.take 3 := fun h => hs (List.mem_of_mem_take h)
  have hlen : (s.take 3).length ≤ 3 := by simp
  unfold unit_of_optarg
  simp only [cstr_of_not_mem s hs]
  have hu : strncpy s 3 ++ ['\x00'] =
      s.take 3 ++ '\x00' :: List.replicate (3 - (s.take 3).length) '\x00' := by
    unfold strncpy
    rw [List.append_assoc]
    congr 1
    rw [← List.replicate_succ', List.replicate_succ]
  rw [hu, cstr_append_nul _ _ ht]
  rw [List.take_left, List.drop_left]
  rw [cstr_append_nul _ _ (not_mem_map_toupper _ ht)]

theorem arrayStr_strncpy (x : List Char) (hx : '\x00' ∉ x) (hlen : x.length ≤ 3) :
    arrayStr (strncpy x 4) = some x := by
  have ht : x.take 4 = x := List.take_of_length_le (by omega)
  have hrep : List.replicate (4 - x.length) '\x00' =
      '\x00' :: List.replicate (3 - x.length) '\x00' := by
    have : 4 - x.length = (3 - x.length) + 1 := by omega
    rw [this, List.replicate_succ]
  unfold strncpy arrayStr
  rw [ht, hrep, cstr_append_nul _ _ hx]
  simp

/-- C5. For every command line made of category flags and exactly one unit
flag `-U s`, the options built have exactly the flagged categories enabled,
and the unit array holds, NUL-terminated, the first three characters of `s`
in upper case; `-o -U mb` gives only `os` and the unit `MB`. -/
theorem main_options_flags_and_unit (args : List Getopt) (s : List Char)
    (hflags : ∀ g ∈ args, g.opt = 'U' ∨ ∃ c : Category, g.opt = c.flag)
    (hunit : args.filter (fun g => g.opt = 'U') = [⟨'U', s⟩])
    (hs : '\x00' ∉ s) :
    (∀ c : Category, (main_options args).enabled c = true ↔ ∃ g ∈ args, g.opt = c.flag) ∧
    (main_options args).unit = strncpy ((s.take 3).map toupper) 4 ∧
    arrayStr (main_options args).unit = some ((s.take 3).map toupper) ∧
    ((∀ c : Category, (main_options [⟨'o', []⟩, ⟨'U', "mb".toList⟩]).enabled c = true ↔
        c = Category.os) ∧
      arrayStr (main_options [⟨'o', []⟩, ⟨'U', "mb".toList⟩]).unit = some "MB".toList) := by
  have hne : args ≠ [] := by
    intro h; rw [h] at hunit; simp at hunit
  have ha : ∀ g ∈ args, g.opt ≠ 'a' := by
    intro g hg h
    rcases hflags g hg with hU | ⟨c, hc⟩
    · rw [h] at hU; revert hU; decide
    · rw [h] at hc; revert hc; cases c <;> decide
  have hunit' : (main_options args).unit = strncpy ((s.take 3).map toupper) 4 := by
    cases args with
    | nil => exact absurd rfl hne
    | cons g gs =>
      rw [main_options_cons, foldl_switch_opt_unit_one _ _ _ ha hunit, unit_of_optarg_eq s hs]
  refine ⟨?_, hunit', ?_, ?_, by decide⟩
  · intro c
    rw [main_options_enabled args hne c]
    constructor
    · rintro ⟨g, hg, h | h⟩
      · exact ⟨g, hg, h⟩
      · exact absurd h (ha g hg)
    · rintro ⟨g, hg, h⟩
      exact ⟨g, hg, Or.inl h⟩
  · rw [hunit']
    apply arrayStr_strncpy
    · exact not_mem_map_toupper _ (fun h => hs (List.mem_of_mem_take h))
    · simp
  · intro c; cases c <;> decide

/-- Witness of `main_options_flags_and_unit`: the command line `-d -U kB -m`. -/
theorem main_options_flags_and_unit_witness :
    (∀ g ∈ [(⟨'d', []⟩ : Getopt), ⟨'U', "kB".toList⟩, ⟨'m', []⟩],
      g.opt = 'U' ∨ ∃ c : Category, g.opt = c.flag) ∧
    [(⟨'d', []⟩ : Getopt), ⟨'U', "kB".toList⟩, ⟨'m', []⟩].filter (fun g => g.opt = 'U') =
      [⟨'U', "kB".toList⟩] ∧
    '\x00' ∉ "kB".toList ∧
    arrayStr (main_options [⟨'d', []⟩, ⟨'U', "kB".toList⟩, ⟨'m', []⟩]).unit =
      some (("kB".toList.take 3).map toupper) :=
  have h1 : ∀ g ∈ [(⟨'d', []⟩ : Getopt), ⟨'U', "kB".toList⟩, ⟨'m', []⟩],
      g.opt = 'U' ∨ ∃ c : Category, g.opt = c.flag := by
    intro g hg
    simp only [List.mem_cons, List.mem_singleton, List.not_mem_nil, or_false] at hg
    rcases hg with rfl | rfl | rfl
    · exact Or.inr ⟨.disk, rfl⟩
    · exact Or.inl rfl
    · exact Or.inr ⟨.mem, rfl⟩
  ⟨h1, by decide, by decide,
    (main_options_flags_and_unit [⟨'d', []⟩, ⟨'U', "kB".toList⟩, ⟨'m', []⟩] "kB".toList
      h1 (by decide) (by decide)).2.2.1⟩

/-! ## CPU probe -/

theorem fgets_all_line (l rest cur : List Char) (hl : '\n' ∉ l)
    (hlen : cur.length + l.length ≤ 254) :
    fgets_all 256 (l ++ '\n' :: rest) cur =
      (cur.reverse ++ l ++ ['\n']) :: fgets_all 256 rest [] := by
  induction l generalizing cur with
  | nil => simp [fgets_all]
  | cons c l ih =>
    have hc : c ≠ '\n' := fun h => hl (by simp [h])
    have hl' : '\n' ∉ l := fun h => hl (by simp [h])
    have hcur : ¬ cur.length + 2 = 256 := by
      simp only [List.length_cons] at hlen; omega
    simp only [List.cons_append, fgets_all, hc, hcur, or_self, if_false, List.append_eq]
    rw [ih (c :: cur) hl' (by simp only [List.length_cons] at hlen ⊢; omega)]
    simp

theorem strncmp_eq_zero_iff (lit a : List Char) (hlit : '\x00' ∉ lit) :
    strncmp a lit lit.length = 0 ↔ lit.isPrefixOf a = true := by
  induction lit generalizing a with
  | nil => cases a <;> simp [strncmp]
  | cons b bs ih =>
    have hb : b ≠ '\x00' := fun h => hlit (by simp [h])
    have hbs : '\x00' ∉ bs := fun h => hlit (by simp [h])
    have hb0 : b.toNat ≠ 0 := by rw [Ne, toNat_eq_zero_iff]; exact hb
    cases a with
    | nil =>
      simp only [List.length_cons, strncmp, List.isPrefixOf]
      constructor
      · intro h; omega
      · intro h; simp at h
    | cons x xs =>
      simp only [List.length_cons, strncmp, List.isPrefixOf, Bool.and_eq_true, beq_iff_eq]
      by_cases hxb : x = b
      · simp only [hxb, if_true, true_and]
        exact ih xs hbs
      · simp only [hxb, if_false]
        constructor
        · intro h
          exfalso
          apply hxb
          have h2 : x.toNat = b.toNat := by omega
          rw [char_of_toNat_eq h2, Char.ofNat_toNat]
        · rintro ⟨h, _⟩
          exact absurd h.symm hxb

theorem isPrefixOf_append_singleton (lit l : List Char) (x : Char) (hx : x ∉ lit) :
    lit.isPrefixOf (l ++ [x]) = lit.isPrefixOf l := by
  induction lit generalizing l with
  | nil => simp
  | cons b bs ih =>
    have hb : x ≠ b := fun h => hx (by simp [h])
    have hbs : x ∉ bs := fun h => hx (by simp [h])
    cases l with
    | nil =>
      have : (b == x) = false := by
        rw [beq_eq_false_iff_ne]; exact Ne.symm hb
      simp only [List.nil_append, List.isPrefixOf, this, Bool.false_and]
    | cons y ys =>
      simp only [List.cons_append, List.isPrefixOf, List.append_eq, ih ys hbs]

theorem strchr_none_iff (a : List Char) (c : Char) : strchr a c = none ↔ c ∉ a := by
  induction a with
  | nil => simp [strchr]
  | cons x xs ih =>
    by_cases h : x = c
    · simp [strchr, h]
    · simp only [strchr, h, if_false, Option.map_eq_none', ih, List.mem_cons, not_or]
      constructor
      · intro h2; exact ⟨fun h3 => h h3.symm, h2⟩
      · intro h2; exact h2.2

theorem strchr_some (a : List Char) (c : Char) (i : Nat) (h : strchr a c = some i) :
    i < a.length ∧ a.drop i = a.dropWhile (fun x => x != c) := by
  induction a generalizing i with
  | nil => simp [strchr] at h
  | cons x xs ih =>
    by_cases hx : x = c
    · simp only [strchr, hx, if_true, Option.some.injEq] at h
      subst h
      simp [hx, List.dropWhile_cons]
    · simp only [strchr, hx, if_false, Option.map_eq_some'] at h
      obtain ⟨j, hj, rfl⟩ := h
      obtain ⟨h1, h2⟩ := ih j hj
      refine ⟨by simp only [List.length_cons]; omega, ?_⟩
      simp [List.dropWhile_cons, hx, h2]

theorem strchr_append_of_mem (l r : List Char) (c : Char) (h : c ∈ l) :
    strchr (l ++ r) c = strchr l c := by
  induction l with
  | nil => simp at h
  | cons x xs ih =>
    by_cases hx : x = c
    · simp [strchr, hx]
    · have hc : c ∈ xs := by
        rcases List.mem_cons.mp h with h | h
        · exact absurd h.symm hx
        · exact h
      simp only [List.cons_append, strchr, hx, if_false, List.append_eq, ih hc]

theorem cpu_loop_cons (l : List Char) (rest : List (List Char)) (hnul : '\x00' ∉ l)
    (hlen : l.length ≤ 254) :
    cpu_loop 256 ((l ++ ['\n']) :: rest) =
      if is_model_line l = true then
        some (((l ++ ['\n']).dropWhile (fun c => c != ':')).drop 2)
      else cpu_loop 256 rest := by
  have hl0 : '\x00' ∉ l ++ ['\n'] := by
    intro h
    rw [List.mem_append] at h
    rcases h with h | h
    · exact hnul h
    · revert h; decide
  have hpre : (strncmp (l ++ ['\n']) "model name".toList 10 = 0) ↔
      "model name".toList.isPrefixOf l = true := by
    have := strncmp_eq_zero_iff "model name".toList (l ++ ['\n']) (by decide)
    rw [isPrefixOf_append_singleton _ _ _ (by decide)] at this
    exact this
  simp only [cpu_loop, cstr_of_not_mem _ hl0, hpre]
  by_cases hp : "model name".toList.isPrefixOf l = true
  · simp only [hp, if_true]
    cases hs : strchr (l ++ ['\n']) ':' with
    | none =>
      have hnc : ':' ∉ l := by
        rw [strchr_none_iff] at hs
        exact fun h => hs (List.mem_append_left _ h)
      have hml : is_model_line l = false := by
        unfold is_model_line
        simp [hnc]
      simp [hml]
    | some i =>
      obtain ⟨hi, hdrop⟩ := strchr_some _ _ _ hs
      have hc : ':' ∈ l := by
        by_contra hnc
        have : strchr (l ++ ['\n']) ':' = none := by
          rw [strchr_none_iff]
          intro h
          rw [List.mem_append] at h
          rcases h with h | h
          · exact hnc h
          · revert h; decide
        rw [this] at hs
        exact Option.noConfusion hs
      have hi2 : i + 2 ≤ (l ++ ['\n']).length := by
        rw [strchr_append_of_mem l ['\n'] ':' hc] at hs
        have hil := (strchr_some _ _ _ hs).1
        simp only [List.length_append, List.length_singleton]; omega
      have hml : is_model_line l = true := by
        unfold is_model_line
        rw [hp]
        simp [hc]
      have hnul2 : '\x00' ∉ (l ++ ['\n']).drop (i + 2) :=
        fun h => hl0 (List.mem_of_mem_drop h)
      simp only [hi2, if_true, hml, cstr_of_not_mem _ hnul2, snprintf]
      rw [← List.drop_drop, ← hdrop, List.drop_drop]
      congr 1
      apply List.take_of_length_le
      simp only [List.length_drop, List.length_append, List.length_singleton]
      omega
  · have hml : is_model_line l = false := by
      unfold is_model_line
      rw [Bool.not_eq_true] at hp
      rw [hp]
      rfl
    simp only [hp, hml, if_false]
    rfl

theorem cpu_loop_table (lines : List (List Char))
    (hnl : ∀ l ∈ scanned_lines lines, '\n' ∉ l)
    (hnul : ∀ l ∈ scanned_lines lines, '\x00' ∉ l)
    (hlen : ∀ l ∈ scanned_lines lines, l.length ≤ 254) :
    cpu_loop 256 (fgets_all 256 (table_bytes lines) []) = some (code_cpu_info lines) := by
  induction lines with
  | nil => simp [table_bytes, fgets_all, cpu_loop, code_cpu_info, snprintf]
  | cons l ls ih =>
    have hmem : l ∈ scanned_lines (l :: ls) := by
      unfold scanned_lines
      split <;> simp
    have h3 : table_bytes (l :: ls) = l ++ '\n' :: table_bytes ls := by
      simp [table_bytes]
    have h1 := fgets_all_line l (table_bytes ls) [] (hnl l hmem)
      (by simpa using hlen l hmem)
    rw [h3, h1, List.reverse_nil, List.nil_append,
      cpu_loop_cons l _ (hnul l hmem) (hlen l hmem)]
    by_cases hml : is_model_line l = true
    · simp [hml, code_cpu_info, List.find?_cons]
    · have hsub : ∀ x ∈ scanned_lines ls, x ∈ scanned_lines (l :: ls) := by
        intro x hx
        simp only [scanned_lines, hml, if_false]
        exact List.mem_cons_of_mem _ hx
      rw [if_neg hml, ih (fun x hx => hnl x (hsub x hx)) (fun x hx => hnul x (hsub x hx))
        (fun x hx => hlen x (hsub x hx))]
      rw [Bool.not_eq_true] at hml
      simp [code_cpu_info, List.find?_cons, hml]

theorem drop_two_append_newline (d : List Char) (hd : d ≠ []) :
    (d ++ ['\n']).drop 2 = d.drop 2 ∨ (d ++ ['\n']).drop 2 = d.drop 2 ++ ['\n'] := by
  match d, hd with
  | [_], _ => left; rfl
  | _ :: _ :: t, _ => right; rfl

theorem code_cpu_info_eq (lines : List (List Char)) :
    code_cpu_info lines = spec_cpu_info lines ∨
      code_cpu_info lines = spec_cpu_info lines ++ ['\n'] := by
  unfold code_cpu_info spec_cpu_info
  cases hf : lines.find? is_model_line with
  | none => left; rfl
  | some l =>
    have hml : is_model_line l = true := List.find?_some hf
    have hc : ':' ∈ l := by
      unfold is_model_line at hml
      rw [Bool.and_eq_true] at hml
      simpa using hml.2
    have hd : l.dropWhile (fun c => c != ':') ≠ [] := by
      intro h
      rw [List.dropWhile_eq_nil_iff] at h
      have := h ':' hc
      simp at this
    have happ : (l ++ ['\n']).dropWhile (fun c => c != ':') =
        l.dropWhile (fun c => c != ':') ++ ['\n'] := by
      clear hf hml
      induction l with
      | nil => simp at hc
      | cons x xs ih =>
        by_cases hx : x = ':'
        · simp [List.dropWhile_cons, hx]
        · have hc' : ':' ∈ xs := by
            rcases List.mem_cons.mp hc with h | h
            · exact absurd h.symm hx
            · exact h
          have hd' : xs.dropWhile (fun c => c != ':') ≠ [] := by
            intro h
            rw [List.dropWhile_eq_nil_iff] at h
            have := h ':' hc'
            simp at this
          simp only [List.cons_append, List.dropWhile_cons, bne_iff_ne, ne_eq, hx,
            not_false_eq_true, if_true, decide_True]
          exact ih hc' hd'
    simp only [happ]
    exact drop_two_append_newline _ hd

/-- C9, as the code has it by design. For every table in which the lines up
to and including the first one that begins with `model name` and contains a
colon are text (no NUL) of at most 254 characters, so that `fgets` reads
each of them whole (the lines after it may be of any length), `get_cpu_info`
returns the value of that line with the leading colon and the one character
after it removed, with or without the newline that ends the line. When the
table has no such line and every line is of that kind, it returns
`CPU info not found`. -/
theorem get_cpu_info_table (lines : List (List Char))
    (hnl : ∀ l ∈ scanned_lines lines, '\n' ∉ l)
    (hnul : ∀ l ∈ scanned_lines lines, '\x00' ∉ l)
    (hlen : ∀ l ∈ scanned_lines lines, l.length ≤ 254) :
    ∃ r : List Char, get_cpu_info (some (table_bytes lines)) 256 = some r ∧
      (match lines.find? is_model_line with
        | some l =>
          r = (l.dropWhile (fun c => c != ':')).drop 2 ∨
            r = (l.dropWhile (fun c => c != ':')).drop 2 ++ ['\n']
        | none => r = "CPU info not found".toList) := by
  refine ⟨code_cpu_info lines, ?_, ?_⟩
  · simp only [get_cpu_info, cpu_loop_table lines hnl hnul hlen]
  · have h := code_cpu_info_eq lines
    unfold spec_cpu_info at h
    cases hf : lines.find? is_model_line with
    | none =>
      unfold code_cpu_info
      rw [hf]
    | some l =>
      rw [hf] at h
      exact h

/-- Witness of `get_cpu_info_table`: a table whose model line is followed by
a line of 700 characters. -/
theorem get_cpu_info_table_witness :
    (∀ l ∈ scanned_lines ["processor\t: 0".toList, "model name\t: Foo CPU".toList,
        "flags\t\t: ".toList ++ List.replicate 700 'f'], '\n' ∉ l) ∧
    (∀ l ∈ scanned_lines ["processor\t: 0".toList, "model name\t: Foo CPU".toList,
        "flags\t\t: ".toList ++ List.replicate 700 'f'], '\x00' ∉ l) ∧
    (∀ l ∈ scanned_lines ["processor\t: 0".toList, "model name\t: Foo CPU".toList,
        "flags\t\t: ".toList ++ List.replicate 700 'f'], l.length ≤ 254) ∧
    ∃ r : List Char,
      get_cpu_info (some (table_bytes ["processor\t: 0".toList,
        "model name\t: Foo CPU".toList,
        "flags\t\t: ".toList ++ List.replicate 700 'f'])) 256 = some r ∧
      (r = "Foo CPU".toList ∨ r = "Foo CPU".toList ++ ['\n']) :=
  have h := get_cpu_info_table ["processor\t: 0".toList, "model name\t: Foo CPU".toList,
    "flags\t\t: ".toList ++ List.replicate 700 'f'] (by decide) (by decide) (by decide)
  ⟨by decide, by decide, by decide, h⟩

/-- C9 as stated fails. On a table whose only line is 255 blanks followed by
`model name: Z`, no line begins with `model name`, so the claim's result is
`CPU info not found`; the code returns `Z` with the line's newline, because
`fgets` hands the line over in pieces of 255 characters and the second piece
begins with `model name`. -/
theorem get_cpu_info_long_line :
    [List.replicate 255 ' ' ++ "model name: Z".toList].find? is_model_line = none ∧
    spec_cpu_info [List.replicate 255 ' ' ++ "model name: Z".toList] =
      "CPU info not found".toList ∧
    get_cpu_info (some (table_bytes
      [List.replicate 255 ' ' ++ "model name: Z".toList])) 256 = some "Z\n".toList ∧
    get_cpu_info (some (table_bytes
      [List.replicate 255 ' ' ++ "model name: Z".toList])) 256 ≠
      some (spec_cpu_info [List.replicate 255 ' ' ++ "model name: Z".toList]) := by
  decide

/-! ## Rounding -/

theorem rne_mul_self (n c : Nat) (hc : 0 < c) : rne (n * c) c = n := by
  unfold rne
  simp [Nat.mul_div_cancel _ hc, Nat.mul_mod_left, hc]

theorem rne_mul_right (a b c : Nat) (hc : 0 < c) : rne (a * c) (b * c) = rne a b := by
  unfold rne
  have h1 : a * c / (b * c) = a / b := Nat.mul_div_mul_right a b hc
  have h2 : a * c % (b * c) = a % b * c := Nat.mul_mod_mul_right c a b
  rw [h1, h2]
  have e1 : 2 * (a % b * c) < b * c ↔ 2 * (a % b) < b := by
    rw [← Nat.mul_assoc]; exact Nat.mul_lt_mul_right hc
  have e2 : b * c < 2 * (a % b * c) ↔ b < 2 * (a % b) := by
    rw [← Nat.mul_assoc]; exact Nat.mul_lt_mul_right hc
  simp only [e1, e2]

theorem rne_near (a b : Nat) (hb : 0 < b) :
    2 * a ≤ 2 * (rne a b * b) + b ∧ 2 * (rne a b * b) ≤ 2 * a + b := by
  have hdm : a / b * b + a % b = a := Nat.div_add_mod' a b
  have hlt : a % b < b := Nat.mod_lt a hb
  unfold rne
  simp only
  generalize a / b = q at hdm ⊢
  generalize a % b = r at hdm hlt ⊢
  have hq1 : (q + 1) * b = q * b + b := by ring
  generalize hp : q * b = p at hdm hq1 ⊢
  split_ifs with h1 h2 h3
  · constructor <;> omega
  · rw [hq1]; constructor <;> omega
  · constructor <;> omega
  · rw [hq1]; constructor <;> omega

theorem scaleUp_spec (a c : Nat) (fuel d0 : Nat) (h : d0 + fuel = 1074) :
    2 ^ 52 * c ≤ a * 2 ^ (scaleUp a c fuel d0) ∨ 1074 ≤ scaleUp a c fuel d0 := by
  induction fuel generalizing d0 with
  | zero =>
    right
    simp only [scaleUp]
    omega
  | succ f ih =>
    simp only [scaleUp]
    split_ifs with hc
    · exact hc
    · exact ih (d0 + 1) (by omega)

/-- A quotient that a `double` holds exactly is not changed by rounding: if
`a / c = m / 2 ^ j` with `m` below `2 ^ 53`, the rounded quotient has that
value. -/
theorem roundQ_exact (a c m j : Nat) (hc : 0 < c) (h : a * 2 ^ j = m * c)
    (hm : m < 2 ^ 53) (hj : j ≤ 1074) :
    (roundQ a c).num * 2 ^ j = m * 2 ^ (roundQ a c).scale := by
  have hj1 : 1 ≤ 2 ^ j := Nat.one_le_two_pow
  by_cases ha : a = 0
  · have hm0 : m = 0 := by
      rw [ha, Nat.zero_mul] at h
      rcases Nat.mul_eq_zero.mp h.symm with h0 | h0
      · exact h0
      · omega
    simp [roundQ, ha, hm0]
  · have hlt : a < 2 ^ 53 * c := by
      calc a ≤ a * 2 ^ j := Nat.le_mul_of_pos_right a (by omega)
        _ = m * c := h
        _ < 2 ^ 53 * c := Nat.mul_lt_mul_of_pos_right hm hc
    simp only [roundQ, ha, hlt, if_true, if_false]
    generalize hd : scaleUp a c 1074 0 = d
    have hspec := scaleUp_spec a c 1074 0 (by omega)
    rw [hd] at hspec
    have hdj : j ≤ d := by
      rcases hspec with h1 | h1
      · by_contra hlt'
        have hdlt : d + 1 ≤ j := by omega
        have hpow : 2 ^ (d + 1) ≤ 2 ^ j := Nat.pow_le_pow_right (by omega) hdlt
        have h2 : 2 ^ 52 * c * 2 ≤ a * 2 ^ d * 2 := Nat.mul_le_mul_right 2 h1
        have h3 : a * 2 ^ d * 2 ≤ a * 2 ^ j := by
          rw [Nat.mul_assoc, ← Nat.pow_succ]
          exact Nat.mul_le_mul_left a hpow
        have h4 : m * c < 2 ^ 53 * c := Nat.mul_lt_mul_of_pos_right hm hc
        rw [← h] at h4
        omega
      · omega
    obtain ⟨e, rfl⟩ : ∃ e, d = j + e := ⟨d - j, by omega⟩
    have hexact : a * 2 ^ (j + e) = m * 2 ^ e * c := by
      rw [Nat.pow_add, ← Nat.mul_assoc, h]
      ring
    rw [hexact, rne_mul_self _ _ hc]
    ring

theorem printf_2f_of_value (x : Dbl) (m j : Nat) (h : x.num * 2 ^ j = m * 2 ^ x.scale) :
    printf_2f x = fixed2 (rne (100 * m) (2 ^ j)) := by
  unfold printf_2f
  congr 1
  have hj : 0 < 2 ^ j := Nat.two_pow_pos j
  have hs : 0 < 2 ^ x.scale := Nat.two_pow_pos _
  rw [← rne_mul_right (100 * x.num) (2 ^ x.scale) (2 ^ j) hj,
    ← rne_mul_right (100 * m) (2 ^ j) (2 ^ x.scale) hs]
  congr 1
  · rw [Nat.mul_assoc, h, Nat.mul_assoc]
  · exact Nat.mul_comm _ _

theorem printf_2f_ofNat (b : Nat) (hb : b < 2 ^ 53) :
    printf_2f (ofNat b) = fixed2 (rne (100 * b) (1024 ^ 0)) := by
  have h := roundQ_exact b 1 b 0 (by omega) (by simp) hb (by omega)
  exact printf_2f_of_value (ofNat b) b 0 h

theorem printf_2f_fdiv (b k : Nat) (hb : b < 2 ^ 53) (hk : 10 * k ≤ 40) :
    printf_2f (fdiv (ofNat b) (ofNat (2 ^ (10 * k)))) = fixed2 (rne (100 * b) (1024 ^ k)) := by
  have hx := roundQ_exact b 1 b 0 (by omega) (by simp) hb (by omega)
  have hp : 2 ^ (10 * k) < 2 ^ 53 := Nat.pow_lt_pow_right (by omega) (by omega)
  have hy := roundQ_exact (2 ^ (10 * k)) 1 (2 ^ (10 * k)) 0 (by omega) (by simp) hp (by omega)
  simp only [Nat.pow_zero, Nat.mul_one] at hx hy
  have hcpos : 0 < (ofNat (2 ^ (10 * k))).num * 2 ^ (ofNat b).scale := by
    apply Nat.mul_pos _ (Nat.two_pow_pos _)
    show 0 < (roundQ (2 ^ (10 * k)) 1).num
    rw [hy]
    exact Nat.mul_pos (Nat.two_pow_pos _) (Nat.two_pow_pos _)
  have hval : (ofNat b).num * 2 ^ (ofNat (2 ^ (10 * k))).scale * 2 ^ (10 * k) =
      b * ((ofNat (2 ^ (10 * k))).num * 2 ^ (ofNat b).scale) := by
    show (roundQ b 1).num * 2 ^ (roundQ (2 ^ (10 * k)) 1).scale * 2 ^ (10 * k) =
      b * ((roundQ (2 ^ (10 * k)) 1).num * 2 ^ (roundQ b 1).scale)
    rw [hx, hy]
    ring
  have h := roundQ_exact _ _ b (10 * k) hcpos hval hb (by omega)
  have h1024 : (1024 : Nat) ^ k = 2 ^ (10 * k) := by
    rw [Nat.pow_mul]
  rw [h1024]
  exact printf_2f_of_value _ b (10 * k) h

theorem format_size_eq (b : Nat) (u : List Char) (hb : b < 2 ^ 53) (hu : '\x00' ∉ u) :
    format_size b u =
      (fixed2 (rne (100 * b) (1024 ^ unit_exponent u)) ++ ' ' :: u).take 63 := by
  have eKB : strcmp u "KB".toList = 0 ↔ u = "KB".toList :=
    strcmp_eq_zero_iff u _ hu (by decide)
  have eMB : strcmp u "MB".toList = 0 ↔ u = "MB".toList :=
    strcmp_eq_zero_iff u _ hu (by decide)
  have eGB : strcmp u "GB".toList = 0 ↔ u = "GB".toList :=
    strcmp_eq_zero_iff u _ hu (by decide)
  have eTB : strcmp u "TB".toList = 0 ↔ u = "TB".toList :=
    strcmp_eq_zero_iff u _ hu (by decide)
  have h1 : ofNat 1024 = ofNat (2 ^ (10 * 1)) := by norm_num
  have h2 : ofNat (1024 * 1024) = ofNat (2 ^ (10 * 2)) := by norm_num
  have h3 : ofNat (1024 * 1024 * 1024) = ofNat (2 ^ (10 * 3)) := by norm_num
  have h4 : ofNat (1024 * 1024 * 1024 * 1024) = ofNat (2 ^ (10 * 4)) := by norm_num
  unfold format_size
  simp only [eKB, eMB, eGB, eTB, snprintf]
  by_cases hKB : u = "KB".toList
  · have hk : unit_exponent u = 1 := by rw [hKB]; decide
    rw [if_pos hKB, hk, h1, printf_2f_fdiv b 1 hb (by omega)]
  by_cases hMB : u = "MB".toList
  · have hk : unit_exponent u = 2 := by rw [hMB]; decide
    rw [if_neg hKB, if_pos hMB, hk, h2, printf_2f_fdiv b 2 hb (by omega)]
  by_cases hGB : u = "GB".toList
  · have hk : unit_exponent u = 3 := by rw [hGB]; decide
    rw [if_neg hKB, if_neg hMB, if_pos hGB, hk, h3, printf_2f_fdiv b 3 hb (by omega)]
  by_cases hTB : u = "TB".toList
  · have hk : unit_exponent u = 4 := by rw [hTB]; decide
    rw [if_neg hKB, if_neg hMB, if_neg hGB, if_pos hTB, hk, h4,
      printf_2f_fdiv b 4 hb (by omega)]
  have hk : unit_exponent u = 0 := by
    unfold unit_exponent
    simp only [hKB, hMB, hGB, hTB, if_false, ite_self]
  rw [if_neg hKB, if_neg hMB, if_neg hGB, if_neg hTB, hk, printf_2f_ofNat b hb]

/-- C2, as the code has it. For every byte count below `2 ^ 53` (where the
conversion to `double` is exact) and every unit string, `format_size` is the
decimal rendering with exactly two fractional digits of `b / 1024 ^ k`
(nearest, ties to even), one space and the unit, cut to the 63 characters
that its buffer holds; `k` is 0, 1, 2, 3, 4 for `B`, `KB`, `MB`, `GB`, `TB`
and 0 for any other unit. In particular `format_size(1048576, "MB")` is
`1.00 MB`, `format_size(0, "GB")` is `0.00 GB` and `format_size(1536, "KB")`
is `1.50 KB`. -/
theorem format_size_rendering (b : Nat) (u : List Char) (hb : b < 2 ^ 53)
    (hu : '\x00' ∉ u) :
    (IsRendering b (unit_exponent u) (fixed2 (rne (100 * b) (1024 ^ unit_exponent u))) ∧
      format_size b u =
        (fixed2 (rne (100 * b) (1024 ^ unit_exponent u)) ++ ' ' :: u).take 63) ∧
    format_size 1048576 "MB".toList = "1.00 MB".toList ∧
    format_size 0 "GB".toList = "0.00 GB".toList ∧
    format_size 1536 "KB".toList = "1.50 KB".toList := by
  refine ⟨⟨?_, format_size_eq b u hb hu⟩, by decide, by decide, by decide⟩
  have hpos : 0 < 1024 ^ unit_exponent u := pow_pos (by norm_num) _
  have hn := rne_near (100 * b) (1024 ^ unit_exponent u) hpos
  exact ⟨_, hn.1, hn.2, rfl⟩

/-- Witness of `format_size_rendering`: 128 bytes in `KB`, a tie that goes to
the even digit. -/
theorem format_size_rendering_witness :
    128 < 2 ^ 53 ∧ '\x00' ∉ "KB".toList ∧
    format_size 128 "KB".toList = "0.12 KB".toList :=
  ⟨by decide, by decide,
   (format_size_rendering 128 "KB".toList (by decide) (by decide)).1.2.trans (by decide)⟩

/-- C2 as stated fails. For `2 ^ 53 + 1` bytes in `B` the result is
`9007199254740992.00 B`, which is no rendering of `2 ^ 53 + 1`: the
conversion to `double` has rounded the count. For a unit of 70 characters
the result is cut to 63 characters, so it is not the number, a space and the
unit. -/
theorem format_size_not_rendering :
    (format_size (2 ^ 53 + 1) "B".toList = "9007199254740992.00 B".toList ∧
      ¬ ∃ s, IsRendering (2 ^ 53 + 1) (unit_exponent "B".toList) s ∧
        format_size (2 ^ 53 + 1) "B".toList = s ++ ' ' :: "B".toList) ∧
    (format_size 0 (List.replicate 70 'X') = "0.00 ".toList ++ List.replicate 58 'X' ∧
      ¬ ∃ s, IsRendering 0 (unit_exponent (List.replicate 70 'X')) s ∧
        format_size 0 (List.replicate 70 'X') = s ++ ' ' :: List.replicate 70 'X') := by
  have hlen : ∀ (x y : List Char), x = y → x.length = y.length := fun _ _ h => by rw [h]
  refine ⟨⟨by decide, ?_⟩, ⟨by decide, ?_⟩⟩
  · rintro ⟨s, ⟨q, h1, h2, rfl⟩, h3⟩
    have hk : unit_exponent "B".toList = 0 := by decide
    rw [hk] at h1 h2
    have hq : q = 100 * (2 ^ 53 + 1) := by omega
    subst hq
    revert h3
    decide
  · rintro ⟨s, _, h3⟩
    have h4 := hlen _ _ h3
    have h5 : (format_size 0 (List.replicate 70 'X')).length = 63 := by decide
    rw [h5] at h4
    simp only [List.length_append, List.length_cons, List.length_replicate] at h4
    omega

/-! ## Uptime probe -/

theorem scaleUp_mul_right (a b c : Nat) (hc : 0 < c) (fuel d0 : Nat) :
    scaleUp (a * c) (b * c) fuel d0 = scaleUp a b fuel d0 := by
  induction fuel generalizing d0 with
  | zero => rfl
  | succ f ih =>
    have e : 2 ^ 52 * (b * c) ≤ a * c * 2 ^ d0 ↔ 2 ^ 52 * b ≤ a * 2 ^ d0 := by
      rw [← Nat.mul_assoc, Nat.mul_right_comm a c]
      exact mul_le_mul_right hc
    simp only [scaleUp, e, ih]

theorem scaleDown_mul_right (a b c : Nat) (hc : 0 < c) (fuel t0 : Nat) :
    scaleDown (a * c) (b * c) fuel t0 = scaleDown a b fuel t0 := by
  induction fuel generalizing t0 with
  | zero => rfl
  | succ f ih =>
    have e : a * c < 2 ^ 53 * (b * c) * 2 ^ t0 ↔ a < 2 ^ 53 * b * 2 ^ t0 := by
      rw [← Nat.mul_assoc, Nat.mul_right_comm (2 ^ 53 * b) c]
      exact Nat.mul_lt_mul_right hc
    simp only [scaleDown, e, ih]

theorem roundQ_mul_right (a b c : Nat) (hc : 0 < c) :
    roundQ (a * c) (b * c) = roundQ a b := by
  have e0 : a * c = 0 ↔ a = 0 := by
    constructor
    · intro h
      rcases Nat.mul_eq_zero.mp h with h | h
      · exact h
      · omega
    · intro h; rw [h, Nat.zero_mul]
  have e1 : a * c < 2 ^ 53 * (b * c) ↔ a < 2 ^ 53 * b := by
    rw [← Nat.mul_assoc]
    exact Nat.mul_lt_mul_right hc
  have e2 : ∀ d, rne (a * c * 2 ^ d) (b * c) = rne (a * 2 ^ d) b := by
    intro d
    rw [Nat.mul_right_comm a c, rne_mul_right _ _ _ hc]
  have e3 : ∀ t, rne (a * c) (b * c * 2 ^ t) = rne a (b * 2 ^ t) := by
    intro t
    rw [Nat.mul_right_comm b c, rne_mul_right _ _ _ hc]
  simp only [roundQ, e0, e1, e2, e3, scaleUp_mul_right a b c hc, scaleDown_mul_right a b c hc]

theorem rne_ge_div (a b : Nat) : a / b ≤ rne a b := by
  unfold rne
  simp only
  split_ifs <;> omega

/-- The quotient of a `double` by a positive integer, rounded to `double`
and then truncated, is the integer quotient: rounding cannot reach the next
integer, because a 53-bit value below a multiple of the divisor stays a
53-bit step below it. -/
theorem trunc_roundQ (m D : Nat) (hm : m < 2 ^ 53) (hD : 0 < D) :
    (roundQ m D).num / 2 ^ (roundQ m D).scale = m / D := by
  by_cases h0 : m = 0
  · simp [roundQ, h0]
  have hlt : m < 2 ^ 53 * D := by
    calc m < 2 ^ 53 := hm
      _ ≤ 2 ^ 53 * D := Nat.le_mul_of_pos_right _ hD
  simp only [roundQ, h0, hlt, if_true, if_false]
  generalize hd : scaleUp m D 1074 0 = d
  have hspec := scaleUp_spec m D 1074 0 (by omega)
  rw [hd] at hspec
  generalize hk : m / D = k
  have hkD : k * D ≤ m := by
    rw [← hk]; exact Nat.div_mul_le_self m D
  have hmk : m < (k + 1) * D := by
    rw [← hk]
    have := Nat.lt_succ_self (m / D)
    exact (Nat.div_lt_iff_lt_mul hD).mp this
  have hpd : 0 < 2 ^ d := Nat.two_pow_pos d
  -- the rounded quotient is at least `k * 2 ^ d`
  have hlow : k * 2 ^ d ≤ rne (m * 2 ^ d) D := by
    refine Nat.le_trans ?_ (rne_ge_div _ _)
    rw [Nat.le_div_iff_mul_le hD]
    calc k * 2 ^ d * D = k * D * 2 ^ d := Nat.mul_right_comm _ _ _
      _ ≤ m * 2 ^ d := Nat.mul_le_mul_right _ hkD
  -- and below `(k + 1) * 2 ^ d`
  generalize hN : (k + 1) * D = N at hmk
  have hgap : N ≤ 2 ^ 53 * (N - m) := by omega
  have hbig : 2 ^ 53 < 2 ^ (d + 1) * (k + 1) := by
    rcases hspec with h1 | h1
    · have h2 : 2 ^ 52 * D < (k + 1) * 2 ^ d * D := by
        calc 2 ^ 52 * D ≤ m * 2 ^ d := h1
          _ < N * 2 ^ d := Nat.mul_lt_mul_of_pos_right hmk hpd
          _ = (k + 1) * 2 ^ d * D := by rw [← hN]; exact Nat.mul_right_comm _ _ _
      have h3 : 2 ^ 52 < (k + 1) * 2 ^ d := Nat.lt_of_mul_lt_mul_right h2
      have e : 2 ^ (d + 1) * (k + 1) = 2 * ((k + 1) * 2 ^ d) := by
        rw [Nat.pow_succ]; ring
      omega
    · have h2 : 2 ^ 54 ≤ 2 ^ (d + 1) := Nat.pow_le_pow_right (by omega) (by omega)
      have h3 : 2 ^ (d + 1) ≤ 2 ^ (d + 1) * (k + 1) := Nat.le_mul_of_pos_right _ (by omega)
      omega
  have hstep : D < 2 ^ (d + 1) * (N - m) := by
    have h1 : 2 ^ 53 * D < 2 ^ 53 * (2 ^ (d + 1) * (N - m)) := by
      calc 2 ^ 53 * D < 2 ^ (d + 1) * (k + 1) * D := Nat.mul_lt_mul_of_pos_right hbig hD
        _ = 2 ^ (d + 1) * N := by rw [← hN, Nat.mul_assoc]
        _ ≤ 2 ^ (d + 1) * (2 ^ 53 * (N - m)) := Nat.mul_le_mul_left _ hgap
        _ = 2 ^ 53 * (2 ^ (d + 1) * (N - m)) := Nat.mul_left_comm _ _ _
    exact Nat.lt_of_mul_lt_mul_left h1
  have hnear := (rne_near (m * 2 ^ d) D hD).2
  have hup : rne (m * 2 ^ d) D < (k + 1) * 2 ^ d := by
    have h1 : 2 * (rne (m * 2 ^ d) D * D) < 2 * ((k + 1) * 2 ^ d * D) := by
      have e1 : (k + 1) * 2 ^ d * D = N * 2 ^ d := by
        rw [← hN]; exact Nat.mul_right_comm _ _ _
      have e2 : 2 ^ (d + 1) * (N - m) = 2 * (N * 2 ^ d) - 2 * (m * 2 ^ d) := by
        rw [Nat.pow_succ, Nat.mul_sub]
        congr 1 <;> ring
      have e3 : m * 2 ^ d < N * 2 ^ d := Nat.mul_lt_mul_of_pos_right hmk hpd
      rw [e1]
      rw [e2] at hstep
      omega
    have h2 : rne (m * 2 ^ d) D * D < (k + 1) * 2 ^ d * D := by omega
    exact Nat.lt_of_mul_lt_mul_right h2
  apply Nat.div_eq_of_lt_le
  · exact hlow
  · exact hup

theorem toInt_days (x : Dbl) (hx : x.num < 2 ^ 53) (hrange : x.num / 2 ^ x.scale < 2 ^ 31) :
    toInt (fdiv x (ofNat 86400)) = some (x.num / 2 ^ x.scale / 86400) := by
  have hy : ofNat 86400 = ⟨86400 * 2 ^ 36, 36⟩ := by decide
  have hq : fdiv x (ofNat 86400) = roundQ x.num (86400 * 2 ^ x.scale) := by
    rw [hy]
    show roundQ (x.num * 2 ^ 36) (86400 * 2 ^ 36 * 2 ^ x.scale) = _
    rw [Nat.mul_right_comm 86400, roundQ_mul_right _ _ _ (Nat.two_pow_pos 36)]
  have hD : 0 < 86400 * 2 ^ x.scale := Nat.mul_pos (by omega) (Nat.two_pow_pos _)
  have ht := trunc_roundQ x.num (86400 * 2 ^ x.scale) hx hD
  have hdd : x.num / (86400 * 2 ^ x.scale) = x.num / 2 ^ x.scale / 86400 := by
    rw [Nat.div_div_eq_div_mul, Nat.mul_comm]
  unfold toInt
  rw [hq, ht, hdd]
  have : x.num / 2 ^ x.scale / 86400 < 2 ^ 31 :=
    Nat.lt_of_le_of_lt (Nat.div_le_self _ _) hrange
  rw [if_pos this]

theorem pad2_length (n : Nat) (hn : n < 60) : (pad2 n).length = 2 := by
  revert n
  decide

/-- C10. For every uptime reading that is a `double` `s` with
`0 ≤ s < 2 ^ 31`, `get_uptime_info` writes `<d> days, HH:MM:SS` where
`d * 86400 + HH * 3600 + MM * 60 + SS` is the whole number of seconds of
`s`, `HH < 24`, `MM < 60`, `SS < 60`, and `HH`, `MM`, `SS` are printed as two
digits each; a reading that `fscanf` cannot convert gives
`0 days, 00:00:00`. -/
theorem get_uptime_info_format (x : Dbl) (hx : x.num < 2 ^ 53)
    (hrange : x.num / 2 ^ x.scale < 2 ^ 31) :
    (∃ d hh mm ss : Nat,
      get_uptime_info (some (some x)) 256 =
        some ((Nat.repr d).data ++ " days, ".toList ++ pad2 hh ++ ':' :: pad2 mm ++
          ':' :: pad2 ss) ∧
      d * 86400 + hh * 3600 + mm * 60 + ss = x.num / 2 ^ x.scale ∧
      hh < 24 ∧ mm < 60 ∧ ss < 60 ∧
      (pad2 hh).length = 2 ∧ (pad2 mm).length = 2 ∧ (pad2 ss).length = 2) ∧
    get_uptime_info (some none) 256 = some "0 days, 00:00:00".toList := by
  refine ⟨?_, by decide⟩
  generalize hs : x.num / 2 ^ x.scale = isec at hrange
  have hdays := toInt_days x hx (by rw [hs]; exact hrange)
  rw [hs] at hdays
  have hsec : toInt x = some isec := by
    unfold toInt
    rw [hs, if_pos hrange]
  have hhh : isec % 86400 / 3600 < 24 := by omega
  have hmm : isec % 3600 / 60 < 60 := by omega
  have hss : isec % 60 < 60 := by omega
  have l1 := pad2_length _ (by omega : isec % 86400 / 3600 < 60)
  have l2 := pad2_length _ hmm
  have l3 := pad2_length _ hss
  have l0 : (Nat.repr (isec / 86400)).data.length ≤ 10 := by
    have : isec / 86400 < 10 ^ 10 := by
      have h2 : (2 : Nat) ^ 31 = 2147483648 := by norm_num
      omega
    exact Nat.repr_length _ 10 (by omega) this
  refine ⟨isec / 86400, isec % 86400 / 3600, isec % 3600 / 60, isec % 60, ?_, by omega,
    hhh, hmm, hss, l1, l2, l3⟩
  simp only [get_uptime_info, hdays, hsec, snprintf]
  congr 1
  apply List.take_of_length_le
  simp only [List.length_append, List.length_cons, l1, l2, l3]
  have : " days, ".toList.length = 7 := by decide
  omega

/-- Witness of `get_uptime_info_format`: the reading 93784.5 seconds. -/
theorem get_uptime_info_format_witness :
    (⟨187569, 1⟩ : Dbl).num < 2 ^ 53 ∧
    (⟨187569, 1⟩ : Dbl).num / 2 ^ (⟨187569, 1⟩ : Dbl).scale < 2 ^ 31 ∧
    (∃ d hh mm ss : Nat,
      get_uptime_info (some (some ⟨187569, 1⟩)) 256 =
        some ((Nat.repr d).data ++ " days, ".toList ++ pad2 hh ++ ':' :: pad2 mm ++
          ':' :: pad2 ss) ∧
      d * 86400 + hh * 3600 + mm * 60 + ss =
        (⟨187569, 1⟩ : Dbl).num / 2 ^ (⟨187569, 1⟩ : Dbl).scale ∧
      hh < 24 ∧ mm < 60 ∧ ss < 60 ∧
      (pad2 hh).length = 2 ∧ (pad2 mm).length = 2 ∧ (pad2 ss).length = 2) ∧
    get_uptime_info (some (some ⟨187569, 1⟩)) 256 = some "1 days, 02:03:04".toList :=
  ⟨by decide, by decide,
   (get_uptime_info_format ⟨187569, 1⟩ (by decide) (by decide)).1, by decide⟩

/-! ## Memory probe -/

/-- C1 fails on the table `MemTotal: 3072 kB`, `MemAvailable: 1024 kB` with
the unit `KB`. The row should read `Used: 2048.00 KB / Available: 1024.00 KB`
(the two renderings of `format_size`); whichever of the two calls of
`format_size` runs last, both `%s` print the one static buffer, so the row
shows the same value twice and is never the expected one. -/
theorem get_memory_info_same_buffer :
    format_size ((3072 - 1024) * 1024) "KB".toList = "2048.00 KB".toList ∧
    format_size (1024 * 1024) "KB".toList = "1024.00 KB".toList ∧
    get_memory_info (some "MemTotal:        3072 kB\nMemAvailable:    1024 kB\n".toList)
        "KB".toList true 256 = "Used: 2048.00 KB / Available: 2048.00 KB".toList ∧
    get_memory_info (some "MemTotal:        3072 kB\nMemAvailable:    1024 kB\n".toList)
        "KB".toList false 256 = "Used: 1024.00 KB / Available: 1024.00 KB".toList ∧
    ∀ usedLast : Bool,
      get_memory_info (some "MemTotal:        3072 kB\nMemAvailable:    1024 kB\n".toList)
        "KB".toList usedLast 256 ≠ "Used: 2048.00 KB / Available: 1024.00 KB".toList := by
  decide

end SystemInfo
